import Mathlib

/-!
Package juju/version: parsing, rendering and ordering of version numbers.

A shallow embedding of `version.go`.

* Go strings are modelled by Lean strings (sequences of Unicode characters); the
  two patterns only use ASCII classes and the negated single character `[^-]`,
  so matching per character agrees with Go's matching per rune.
* Go `int` values are modelled by `Int`; `strconv.Atoi` keeps its 64-bit range check.
* A Go result pair `(value, error)` is a Lean pair whose second component is
  `none` when the error is `nil`.  A panic is the outer `none` of an `Option`.
* `regexp.FindStringSubmatch` is modelled by a backtracking matcher that lists
  the ways a pattern can match in priority order (leftmost-first semantics).
-/

set_option maxRecDepth 100000
set_option linter.unusedVariables false
set_option linter.unusedTactic false
set_option linter.unreachableTactic false

namespace version

/-! ## Data model -/

/-- Number represents a version Number. -/
structure Number where
  Major : Int
  Minor : Int
  Tag : String
  Patch : Int
  Build : Int
deriving DecidableEq, Repr

/-- Zero is the zero value `Number{}`. -/
def Zero : Number := { Major := 0, Minor := 0, Tag := "", Patch := 0, Build := 0 }

/-- Binary specifies a binary version of juju: an embedded `Number` plus series and arch. -/
structure Binary extends Number where
  Series : String
  Arch : String
deriving DecidableEq, Repr

/-- The zero value `Binary{}`. -/
def Binary.zero : Binary := { toNumber := Zero, Series := "", Arch := "" }

/-- Error values: the format verb arguments are kept, the message text is not rendered. -/
inductive Error where
  | invalidVersion (s : String)
  | invalidBinaryVersion (s : String)
  | invalidMajor (part : String) (cause : Error)
  | invalidMinor (part : String) (cause : Error)
  | invalidMajorMinor (vers : String)
  | atoiSyntax
  | atoiRange
deriving DecidableEq, Repr

/-! ## Regular expressions (the fragment used by `numberPat` and `binaryPat`) -/

/-- Single-character classes. -/
inductive CharClass where
  | digit      -- `\d`
  | word       -- `\w`
  | notHyphen  -- `[^-]`
  | lit (c : Char)
deriving DecidableEq, Repr

/-- ASCII decimal digit test. -/
def isDigitChar (c : Char) : Bool := decide ('0' ≤ c) && decide (c ≤ '9')

/-- ASCII word character test: `[0-9A-Za-z_]`. -/
def isWordChar (c : Char) : Bool :=
  isDigitChar c || (decide ('A' ≤ c) && decide (c ≤ 'Z')) ||
    (decide ('a' ≤ c) && decide (c ≤ 'z')) || decide (c = '_')

/-- Membership of a character in a class. -/
def CharClass.test : CharClass → Char → Bool
  | .digit, c => isDigitChar c
  | .word, c => isWordChar c
  | .notHyphen, c => !decide (c = '-')
  | .lit d, c => decide (c = d)

/-- Regular expression syntax. Repetition is only needed over character classes. -/
inductive Re where
  | bot                                   -- `^`
  | eot                                   -- `$` (no multi-line flag: end of text only)
  | chr (cc : CharClass)
  | seq (a b : Re)
  | alt (a b : Re)
  | opt (r : Re)                          -- `r?`, greedy
  | rep (cc : CharClass) (lo hi : Nat)    -- `cc{lo,hi}`, greedy
  | plus (cc : CharClass)                 -- `cc+`, greedy
  | group (i : Nat) (r : Re)              -- capturing group number `i`
deriving Repr

/-- Capture registers: entry `i` is the text of group `i`, `none` if it did not take part. -/
abbrev Caps := List (Option (List Char))

/-- Greedy bounded repetition of a class: the remaining inputs after consuming
`k` characters, for every admissible `k`, longest first. -/
def repRun (cc : CharClass) : Nat → Nat → List Char → List (List Char)
  | lo, 0, s => if lo = 0 then [s] else []
  | lo, hi + 1, s =>
    (match s with
      | c :: t => if cc.test c then repRun cc (lo - 1) hi t else []
      | [] => []) ++ (if lo = 0 then [s] else [])

/-- All ways `r` matches at the head of `s` (the text is `full`), in priority
order, each with the remaining input and the updated captures. -/
def Re.run (full : List Char) : Re → List Char → Caps → List (List Char × Caps)
  | .bot, s, caps => if s.length = full.length then [(s, caps)] else []
  | .eot, s, caps => if s = [] then [(s, caps)] else []
  | .chr cc, s, caps =>
    match s with
    | c :: t => if cc.test c then [(t, caps)] else []
    | [] => []
  | .seq a b, s, caps => (a.run full s caps).flatMap fun p => b.run full p.1 p.2
  | .alt a b, s, caps => a.run full s caps ++ b.run full s caps
  | .opt r, s, caps => r.run full s caps ++ [(s, caps)]
  | .rep cc lo hi, s, caps => (repRun cc lo hi s).map fun t => (t, caps)
  | .plus cc, s, caps => (repRun cc 1 s.length s).map fun t => (t, caps)
  | .group i r, s, caps =>
    (r.run full s caps).map fun p => (p.1, p.2.set i (some (s.take (s.length - p.1.length))))

/-- Highest group number of a pattern. -/
def Re.numSubexp : Re → Nat
  | .seq a b => max a.numSubexp b.numSubexp
  | .alt a b => max a.numSubexp b.numSubexp
  | .opt r => r.numSubexp
  | .group i r => max i r.numSubexp
  | _ => 0

/-- Leftmost match search: try every start offset in turn, take the first way of matching. -/
def searchFrom (re : Re) (full : List Char) (caps0 : Caps) : List Char → Option (List Char × List Char × Caps)
  | [] => ((re.run full [] caps0).head?).map fun p => ([], p)
  | c :: t =>
    match re.run full (c :: t) caps0 with
    | p :: _ => some (c :: t, p)
    | [] => searchFrom re full caps0 t

/-- The text of a capture register as a Go string (empty when the group took no part). -/
def capText (o : Option (List Char)) : String :=
  match o with
  | some l => String.mk l
  | none => ""

/-- The method `(*Regexp).FindStringSubmatch`: `none` is the nil slice. -/
def FindStringSubmatch (re : Re) (s : String) : Option (List String) :=
  match searchFrom re s.data (List.replicate (re.numSubexp + 1) none) s.data with
  | none => none
  | some (start, rest, caps) =>
    some ((caps.set 0 (some (start.take (start.length - rest.length)))).map capText)

/-- The digits group `(\d{1,9})` with number `i`. -/
def digitsGroup (i : Nat) : Re := .group i (.rep .digit 1 9)

/-- The separator `(\.|-(\w+))`: groups 3 and 4. -/
def sepGroup : Re :=
  .group 3 (.alt (.chr (.lit '.')) (.seq (.chr (.lit '-')) (.group 4 (.plus .word))))

/-- The optional build `(\.\d{1,9})?`: group 6. -/
def buildGroup : Re := .opt (.group 6 (.seq (.chr (.lit '.')) (.rep .digit 1 9)))

/-- The part shared by both patterns:
`(\d{1,9})\.(\d{1,9})(\.|-(\w+))(\d{1,9})(\.\d{1,9})?`. -/
def numberBody : Re :=
  .seq (digitsGroup 1) (.seq (.chr (.lit '.')) (.seq (digitsGroup 2)
    (.seq sepGroup (.seq (digitsGroup 5) buildGroup))))

/-- Pattern `^(\d{1,9})\.(\d{1,9})(\.|-(\w+))(\d{1,9})(\.\d{1,9})?$`. -/
def numberPat : Re := .seq .bot (.seq numberBody .eot)

/-- The end of `binaryPat`: `-([^-]+)-([^-]+)$`, groups 7 and 8. -/
def seriesArch : Re :=
  .seq (.chr (.lit '-')) (.seq (.group 7 (.plus .notHyphen))
    (.seq (.chr (.lit '-')) (.seq (.group 8 (.plus .notHyphen)) .eot)))

/-- Pattern `^(\d{1,9})\.(\d{1,9})(\.|-(\w+))(\d{1,9})(\.\d{1,9})?-([^-]+)-([^-]+)$`. -/
def binaryPat : Re := .seq .bot (.seq numberBody seriesArch)

/-! ## Integer conversion and formatting (library functions) -/

/-- Value of an ASCII digit. -/
def digitVal (c : Char) : Option Nat :=
  if isDigitChar c then some (c.toNat - 48) else none

/-- The loop of `strconv.ParseUint` in base 10 for 64 bits: a non-digit is a syntax
error, a value above `2^64 - 1` is a range error (with the maximum as value),
whichever comes first from the left. -/
def parseUint : List Char → Nat → Nat × Option Error
  | [], acc => (acc, none)
  | c :: t, acc =>
    match digitVal c with
    | none => (0, some Error.atoiSyntax)
    | some d =>
      if 2 ^ 64 ≤ acc * 10 + d then (2 ^ 64 - 1, some Error.atoiRange)
      else parseUint t (acc * 10 + d)

/-- The function `strconv.Atoi` for a 64-bit `int`: optional sign, decimal digits,
range check. -/
def strconvAtoi (s : String) : Int × Option Error :=
  let sd : Bool × List Char :=
    match s.data with
    | c :: t => if c = '-' then (true, t) else if c = '+' then (false, t) else (false, c :: t)
    | [] => (false, [])
  if sd.2 = [] then (0, some Error.atoiSyntax)
  else
    match parseUint sd.2 0 with
    | (_, some Error.atoiSyntax) => (0, some Error.atoiSyntax)
    | (un, _) =>
      if sd.1 then
        (if un ≤ 2 ^ 63 then (-(un : Int), none) else (-(2 ^ 63 : Int), some Error.atoiRange))
      else
        (if un < 2 ^ 63 then ((un : Int), none) else ((2 ^ 63 - 1 : Int), some Error.atoiRange))

/-- atoi is the same as strconv.Atoi but assumes that the string has been
verified to be a valid integer: it panics (`none`) otherwise. -/
def atoi (s : String) : Option Int :=
  match strconvAtoi s with
  | (n, none) => some n
  | (_, some _) => none

/-- Decimal digits of a natural number, most significant first (`fuel` bounds the loop). -/
def fmtUintAux : Nat → Nat → List Char → List Char
  | 0, u, acc => Nat.digitChar (u % 10) :: acc
  | fuel + 1, u, acc =>
    if 10 ≤ u then fmtUintAux fuel (u / 10) (Nat.digitChar (u % 10) :: acc)
    else Nat.digitChar u :: acc

/-- Decimal digits of a natural number. -/
def fmtUint (u : Nat) : List Char := fmtUintAux u u []

/-- The verb `%d` of `fmt.Sprintf` on an `int`. -/
def fmtD (n : Int) : String :=
  if n < 0 then String.mk ('-' :: fmtUint n.natAbs) else String.mk (fmtUint n.natAbs)

/-- Go slice expression `s[n:]` on a string whose first `n` characters are ASCII. -/
def sliceFrom (s : String) (n : Nat) : String := String.mk (s.data.drop n)

/-! ## The functions of `version.go` -/

/-- Number.String renders the canonical form. -/
def Number.String (v : Number) : String :=
  let s :=
    if v.Tag = "" then fmtD v.Major ++ "." ++ fmtD v.Minor ++ "." ++ fmtD v.Patch
    else fmtD v.Major ++ "." ++ fmtD v.Minor ++ "-" ++ v.Tag ++ fmtD v.Patch
  if v.Build > 0 then s ++ "." ++ fmtD v.Build else s

/-- Binary.String is `fmt.Sprintf("%v-%s-%s", v.Number, v.Series, v.Arch)`. -/
def Binary.String (v : Binary) : String :=
  Number.String v.toNumber ++ "-" ++ v.Series ++ "-" ++ v.Arch

/-- Parse parses the version, which is of the form 1.2.3. -/
def Parse (s : String) : Option (Number × Option Error) :=
  match FindStringSubmatch numberPat s with
  | none => some (Zero, some (Error.invalidVersion s))
  | some m => do
    let major ← atoi (m.getD 1 "")
    let minor ← atoi (m.getD 2 "")
    let tag := m.getD 4 ""
    let patch ← atoi (m.getD 5 "")
    let build ← if m.getD 6 "" ≠ "" then atoi (sliceFrom (m.getD 6 "") 1) else some 0
    some ({ Major := major, Minor := minor, Tag := tag, Patch := patch, Build := build }, none)

/-- ParseBinary parses a binary version of the form "1.2.3-series-arch". -/
def ParseBinary (s : String) : Option (Binary × Option Error) :=
  match FindStringSubmatch binaryPat s with
  | none => some (Binary.zero, some (Error.invalidBinaryVersion s))
  | some m => do
    let major ← atoi (m.getD 1 "")
    let minor ← atoi (m.getD 2 "")
    let tag := m.getD 4 ""
    let patch ← atoi (m.getD 5 "")
    let build ← if m.getD 6 "" ≠ "" then atoi (sliceFrom (m.getD 6 "") 1) else some 0
    some ({ Major := major, Minor := minor, Tag := tag, Patch := patch, Build := build,
            Series := m.getD 7 "", Arch := m.getD 8 "" }, none)

/-- The call `strings.Split(s, ".")`: the pieces between the dots, at least one piece. -/
def splitDot : List Char → List (List Char)
  | [] => [[]]
  | c :: t =>
    if c = '.' then [] :: splitDot t
    else
      match splitDot t with
      | [] => [[c]]
      | h :: r => (c :: h) :: r

/-- ParseMajorMinor takes an argument of the form "major.minor" and returns ints major and minor. -/
def ParseMajorMinor (vers : String) : Int × Int × Option Error :=
  let parts : List String := (splitDot vers.data).map String.mk
  let r := strconvAtoi (parts.getD 0 "")
  match r.2 with
  | some err => (-1, -1, some (Error.invalidMajor (parts.getD 0 "") err))
  | none =>
    if parts.length = 2 then
      let r2 := strconvAtoi (parts.getD 1 "")
      match r2.2 with
      | some err => (-1, -1, some (Error.invalidMinor (parts.getD 1 "") err))
      | none => (r.1, r2.1, none)
    else if parts.length > 2 then (-1, -1, some (Error.invalidMajorMinor vers))
    else (r.1, -1, none)

/-- Compare returns -1, 0 or 1 depending on whether v is less than, equal to or greater than w.
Go's `<` on strings is the lexicographic order of their characters. -/
def Number.Compare (v w : Number) : Int :=
  if v = w then 0
  else
    let less : Bool :=
      if v.Major ≠ w.Major then decide (v.Major < w.Major)
      else if v.Minor ≠ w.Minor then decide (v.Minor < w.Minor)
      else if v.Tag ≠ w.Tag then
        (if v.Tag = "" then false
         else if w.Tag = "" then true
         else decide (v.Tag.data < w.Tag.data))
      else if v.Patch ≠ w.Patch then decide (v.Patch < w.Patch)
      else if v.Build ≠ w.Build then decide (v.Build < w.Build)
      else false
    if less then -1 else 1

/-! ## Reference order (from the specification's wording) -/

/-- Order of one integer component: smaller integer is less. -/
def cmpInt (a b : Int) : Int := if a < b then -1 else if a = b then 0 else 1

/-- The tag rule: equal tags tie; an empty tag is greater than any non-empty
tag; two non-empty tags are ordered lexicographically. -/
def cmpTag (a b : String) : Int :=
  if a = b then 0
  else if a = "" then 1
  else if b = "" then -1
  else if a < b then -1 else 1

/-- The first component comparison that is not a tie decides; all ties give 0. -/
def firstDiff : List Int → Int
  | [] => 0
  | c :: rest => if c ≠ 0 then c else firstDiff rest

/-- Field-priority reference order: Major, Minor, Tag, Patch, Build. -/
def compareRef (v w : Number) : Int :=
  firstDiff [cmpInt v.Major w.Major, cmpInt v.Minor w.Minor, cmpTag v.Tag w.Tag,
    cmpInt v.Patch w.Patch, cmpInt v.Build w.Build]

/-! ## Definitions used to state and prove the properties -/

/-- Three comparison results `a = c(u,v)`, `b = c(v,w)`, `d = c(u,w)` of a total order. -/
def Coherent (a b d : Int) : Prop :=
  (-1 ≤ a ∧ a ≤ 1) ∧ (-1 ≤ b ∧ b ≤ 1) ∧ (-1 ≤ d ∧ d ≤ 1) ∧
  (a = 0 → d = b) ∧ (b = 0 → d = a) ∧ (a = -1 → b = -1 → d = -1) ∧ (a = 1 → b = 1 → d = 1)

/-- Agreement of the boolean `less` with a reference result that is not a tie. -/
def LessAgrees (l : Bool) (r : Int) : Prop := r ≠ 0 → r = if l = true then -1 else 1

/-- What it means for `r` to match from input `s` leaving `t` (captures ignored). -/
def Re.Matches (full : List Char) : Re → List Char → List Char → Prop
  | .bot, s, t => t = s ∧ s.length = full.length
  | .eot, s, t => t = s ∧ s = []
  | .chr cc, s, t => ∃ c, s = c :: t ∧ cc.test c = true
  | .seq a b, s, t => ∃ m, a.Matches full s m ∧ b.Matches full m t
  | .alt a b, s, t => a.Matches full s t ∨ b.Matches full s t
  | .opt r, s, t => r.Matches full s t ∨ t = s
  | .rep cc lo hi, s, t =>
    ∃ pre, s = pre ++ t ∧ lo ≤ pre.length ∧ pre.length ≤ hi ∧ ∀ c ∈ pre, cc.test c = true
  | .plus cc, s, t => ∃ pre, s = pre ++ t ∧ 1 ≤ pre.length ∧ ∀ c ∈ pre, cc.test c = true
  | .group _ r, s, t => r.Matches full s t

/-- Inputs that do not start with a character of the class. -/
def NoHead (cc : CharClass) (rest : List Char) : Prop :=
  ∀ c t, rest = c :: t → cc.test c = false

/-- A continuation that gives nothing on inputs starting with a character of the class. -/
def Kills {β : Type} (cc : CharClass) (k : List Char × Caps → List β) : Prop :=
  ∀ c t caps, cc.test c = true → k (c :: t, caps) = []

/-- One to nine ASCII decimal digits. -/
def IsD (l : List Char) : Prop := 1 ≤ l.length ∧ l.length ≤ 9 ∧ ∀ c ∈ l, isDigitChar c = true

/-- One or more ASCII word characters. -/
def IsW (l : List Char) : Prop := 1 ≤ l.length ∧ ∀ c ∈ l, isWordChar c = true

/-- Text of the optional build suffix. -/
def buildText : Option (List Char) → List Char
  | none => []
  | some d => '.' :: d

/-- Register 6 after the optional build suffix. -/
def buildCaps (caps : Caps) : Option (List Char) → Caps
  | none => caps
  | some d => caps.set 6 (some ('.' :: d))

/-- Text of the separator before the patch digits, for a given tag. -/
def sepText (tag : List Char) : List Char := if tag = [] then ['.'] else '-' :: tag

/-- Registers 3 and 4 after the separator. -/
def sepCaps (caps : Caps) (tag : List Char) : Caps :=
  if tag = [] then caps.set 3 (some ['.']) else (caps.set 4 (some tag)).set 3 (some ('-' :: tag))

/-- The patch texts for which the first match is the intended one: any digits
after a plain dot, a single digit after a tag. -/
def PatchOk (tag c : List Char) : Prop :=
  (tag = [] ∧ IsD c) ∨ (IsW tag ∧ ∃ x, c = [x] ∧ isDigitChar x = true)

/-- Registers after a match of `numberBody`. -/
def numberCaps (caps : Caps) (a b tag c : List Char) (ob : Option (List Char)) : Caps :=
  buildCaps ((sepCaps ((caps.set 1 (some a)).set 2 (some b)) tag).set 5 (some c)) ob

/-- The canonical text of a number, from its parts. -/
def numberText (a b tag c : List Char) (ob : Option (List Char)) : List Char :=
  a ++ '.' :: (b ++ (sepText tag ++ (c ++ buildText ob)))

/-- Base-10 value of a digit string, position by position. -/
def decimalValue : List Char → Nat
  | [] => 0
  | c :: t => (c.toNat - 48) * 10 ^ t.length + decimalValue t

/-- Value of the optional build digits. -/
def buildValue : Option (List Char) → Int
  | none => 0
  | some d => (decimalValue d : Int)

/-- The grammar of the specification, `D "." D ("." | "-" W) D ["." D]` for the
whole string, with `D` one to nine digits and `W` one or more word characters. -/
def NumberGrammar (s : String) : Prop :=
  ∃ major minor sep patch build : List Char,
    s.data = major ++ '.' :: (minor ++ (sep ++ (patch ++ build))) ∧
    IsD major ∧ IsD minor ∧ (sep = ['.'] ∨ ∃ w, IsW w ∧ sep = '-' :: w) ∧ IsD patch ∧
    (build = [] ∨ ∃ d, IsD d ∧ build = '.' :: d)

/-- The optional build digits that `Number.String` renders. -/
def buildOf (n : Int) : Option (List Char) := if n > 0 then some (fmtUint n.toNat) else none

/-- One or more characters other than the hyphen. -/
def IsSeg (l : List Char) : Prop := 1 ≤ l.length ∧ ∀ c ∈ l, c ≠ '-'

/-- The canonical text of a binary version, from its parts. -/
def binaryText (a b tag c : List Char) (ob : Option (List Char)) (series arch : List Char) :
    List Char :=
  numberText a b tag c ob ++ '-' :: (series ++ '-' :: arch)

/-- The shortest decimal numeral of a non-negative integer: digits only, at least
one, with the given value, and no leading zero unless it is the single digit `0`. -/
def IsShortestDecimal (n : Int) (s : String) : Prop :=
  s.data ≠ [] ∧ (∀ c ∈ s.data, isDigitChar c = true) ∧ (decimalValue s.data : Int) = n ∧
    (2 ≤ s.data.length → s.data.head? ≠ some '0')

/-- A non-empty string of ASCII decimal digits. -/
def IsLit (l : List Char) : Prop := l ≠ [] ∧ ∀ c ∈ l, isDigitChar c = true

/-- An optionally signed literal: an optional `+` or `-`, then one or more digits. -/
def IsSignedLit (l : List Char) : Prop :=
  ∃ sign digits, l = sign ++ digits ∧ (sign = [] ∨ sign = ['-'] ∨ sign = ['+']) ∧ IsLit digits

/-- Text after the last hyphen (the whole text when there is none). -/
def afterLastHyphen (l : List Char) : List Char :=
  (l.reverse.takeWhile (fun c => !decide (c = '-'))).reverse

/-- Text before the last hyphen (empty when there is none). -/
def beforeLastHyphen (l : List Char) : List Char :=
  ((l.reverse.dropWhile (fun c => !decide (c = '-'))).drop 1).reverse

/-- Maximal run of word characters that follows the first hyphen. -/
def wordRunAfterHyphen (l : List Char) : List Char :=
  ((l.dropWhile (fun c => !decide (c = '-'))).drop 1).takeWhile isWordChar

/-- A numeral without superfluous leading zero: a single digit, or not starting with `0`. -/
def NoLeadingZero (l : List Char) : Prop := l.length = 1 ∨ l.head? ≠ some '0'

/-- A binary version text written canonically: in the grammar of `binaryPat`, with
major, minor and (after a dot) patch free of superfluous leading zeros, and a build
group, if present, that does not start with `0`. -/
def CanonicalBinaryText (s : String) : Prop :=
  ∃ major minor sep patch build series arch : List Char,
    s.data = major ++ '.' :: (minor ++ (sep ++ (patch ++ build))) ++ '-' :: (series ++ '-' :: arch) ∧
    IsD major ∧ IsD minor ∧ (sep = ['.'] ∨ ∃ w, IsW w ∧ sep = '-' :: w) ∧ IsD patch ∧
    (build = [] ∨ ∃ d, IsD d ∧ build = '.' :: d) ∧ IsSeg series ∧ IsSeg arch ∧
    NoLeadingZero major ∧ NoLeadingZero minor ∧ (sep = ['.'] → NoLeadingZero patch) ∧
    (∀ d, build = '.' :: d → d.head? ≠ some '0')

/-- The data-model invariant of a parsed Number: every numeric field in
0..999999999 and a Tag that is empty or made of word characters. -/
def NumberInvariant (v : Number) : Prop :=
  (0 ≤ v.Major ∧ v.Major ≤ 999999999) ∧ (0 ≤ v.Minor ∧ v.Minor ≤ 999999999) ∧
  (0 ≤ v.Patch ∧ v.Patch ≤ 999999999) ∧ (0 ≤ v.Build ∧ v.Build ≤ 999999999) ∧
  (v.Tag = "" ∨ IsW v.Tag.data)

/-- The strings that `Parse` and `ParseBinary` hand to `atoi`, for a submatch slice
`m`: groups 1, 2 and 5, and group 6 without its leading dot when it is not empty;
each is one to nine digits. -/
def AtoiArgsOk (m : List String) : Prop :=
  IsD (m.getD 1 "").data ∧ IsD (m.getD 2 "").data ∧ IsD (m.getD 5 "").data ∧
  (m.getD 6 "" ≠ "" → IsD (sliceFrom (m.getD 6 "") 1).data)

theorem cmpInt_range (a b : Int) : -1 ≤ cmpInt a b ∧ cmpInt a b ≤ 1 := by
  unfold cmpInt; split_ifs <;> omega

theorem cmpInt_eq_zero (a b : Int) : cmpInt a b = 0 ↔ a = b := by
  unfold cmpInt; split_ifs <;> (try simp) <;> omega

theorem cmpInt_neg (a b : Int) : cmpInt a b = -cmpInt b a := by
  unfold cmpInt; split_ifs <;> omega

theorem cmpInt_coherent (a b c : Int) : Coherent (cmpInt a b) (cmpInt b c) (cmpInt a c) := by
  unfold Coherent cmpInt
  split_ifs <;> (try simp) <;> omega

theorem cmpTag_range (a b : String) : -1 ≤ cmpTag a b ∧ cmpTag a b ≤ 1 := by
  unfold cmpTag; split_ifs <;> omega

theorem cmpTag_eq_zero (a b : String) : cmpTag a b = 0 ↔ a = b := by
  unfold cmpTag
  by_cases hab : a = b
  · simp [hab]
  · simp only [hab, if_false, iff_false]
    split_ifs <;> simp

theorem cmpTag_neg (a b : String) : cmpTag a b = -cmpTag b a := by
  unfold cmpTag
  by_cases hab : a = b
  · subst hab; simp
  · have hba : ¬ b = a := fun h => hab h.symm
    by_cases ha : a = ""
    · subst ha
      simp [hab, hba]
    · by_cases hb : b = ""
      · subst hb
        simp [hab, hba]
      · simp only [hab, hba, ha, hb, if_false]
        rcases lt_trichotomy a b with h | h | h
        · have : ¬ b < a := lt_asymm h
          simp [h, this]
        · exact absurd h hab
        · have : ¬ a < b := lt_asymm h
          simp [h, this]

theorem cmpTag_eq_neg_one (a b : String) :
    cmpTag a b = -1 ↔ a ≠ b ∧ a ≠ "" ∧ (b = "" ∨ a < b) := by
  unfold cmpTag
  by_cases hab : a = b
  · simp [hab]
  · by_cases ha : a = ""
    · simp only [hab, ha, if_false, if_true]
      constructor
      · intro h; omega
      · intro h; exact absurd rfl h.2.1
    · by_cases hb : b = ""
      · simp only [hab, ha, hb, if_false, if_true]
        simp [ha]
      · by_cases hlt : a < b
        · simp only [hab, ha, hb, hlt, if_false, if_true]
          simp [hab, ha]
        · simp only [hab, ha, hb, hlt, if_false]
          simp

theorem cmpTag_trans_lt (a b c : String) (h1 : cmpTag a b = -1) (h2 : cmpTag b c = -1) :
    cmpTag a c = -1 := by
  rw [cmpTag_eq_neg_one] at h1 h2 ⊢
  obtain ⟨hab, ha, h1⟩ := h1
  obtain ⟨hbc, hb, h2⟩ := h2
  rcases h1 with h1 | h1
  · exact absurd h1 hb
  · rcases h2 with h2 | h2
    · subst h2; exact ⟨ha, ha, Or.inl rfl⟩
    · have hac : a < c := lt_trans h1 h2
      exact ⟨ne_of_lt hac, ha, Or.inr hac⟩

theorem cmpTag_coherent (a b c : String) : Coherent (cmpTag a b) (cmpTag b c) (cmpTag a c) := by
  refine ⟨cmpTag_range a b, cmpTag_range b c, cmpTag_range a c, ?_, ?_, ?_, ?_⟩
  · intro h
    rw [cmpTag_eq_zero] at h
    rw [h]
  · intro h
    rw [cmpTag_eq_zero] at h
    rw [h]
  · exact cmpTag_trans_lt a b c
  · intro h1 h2
    have h1' : cmpTag b a = -1 := by rw [cmpTag_neg b a, h1]
    have h2' : cmpTag c b = -1 := by rw [cmpTag_neg c b, h2]
    have h3 := cmpTag_trans_lt c b a h2' h1'
    rw [cmpTag_neg a c, h3]; rfl

/-- One lexicographic step. -/
theorem firstDiff_cons (c : Int) (rest : List Int) :
    firstDiff (c :: rest) = if c ≠ 0 then c else firstDiff rest := rfl

theorem coherent_step {a b d a' b' d' : Int} (h : Coherent a b d) (h' : Coherent a' b' d') :
    Coherent (if a ≠ 0 then a else a') (if b ≠ 0 then b else b') (if d ≠ 0 then d else d') := by
  obtain ⟨ra, rb, rd, h1, h2, h3, h4⟩ := h
  by_cases ha : a = 0
  · have hd : d = b := h1 ha
    subst ha; subst hd
    by_cases hb : d = 0
    · subst hb; simpa using h'
    · obtain ⟨ra', rb', rd', -⟩ := h'
      simp only [hb, ne_eq, not_true_eq_false, not_false_eq_true, if_true, if_false]
      unfold Coherent
      omega
  · by_cases hb : b = 0
    · have hd : d = a := h2 hb
      subst hb; subst hd
      obtain ⟨ra', rb', rd', -⟩ := h'
      simp only [ha, ne_eq, not_true_eq_false, not_false_eq_true, if_true, if_false]
      unfold Coherent
      omega
    · obtain ⟨ra', rb', rd', -⟩ := h'
      simp only [ha, hb, ne_eq, not_false_eq_true, if_true]
      unfold Coherent
      split_ifs <;> omega

theorem coherent_zero : Coherent 0 0 0 := by unfold Coherent; omega

theorem compareRef_coherent (u v w : Number) :
    Coherent (compareRef u v) (compareRef v w) (compareRef u w) := by
  unfold compareRef
  simp only [firstDiff_cons]
  exact coherent_step (cmpInt_coherent _ _ _) (coherent_step (cmpInt_coherent _ _ _)
    (coherent_step (cmpTag_coherent _ _ _) (coherent_step (cmpInt_coherent _ _ _)
      (coherent_step (cmpInt_coherent _ _ _) coherent_zero))))

theorem neg_step {a a' r r' : Int} (h : a = -a') (hr : r = -r') :
    (if a ≠ 0 then a else r) = -(if a' ≠ 0 then a' else r') := by
  subst h; subst hr
  by_cases h0 : a' = 0
  · simp [h0]
  · simp [h0]

theorem compareRef_neg (v w : Number) : compareRef v w = -compareRef w v := by
  unfold compareRef
  simp only [firstDiff_cons]
  exact neg_step (cmpInt_neg _ _) (neg_step (cmpInt_neg _ _) (neg_step (cmpTag_neg _ _)
    (neg_step (cmpInt_neg _ _) (neg_step (cmpInt_neg _ _) (by simp [firstDiff])))))

theorem zero_step (a r : Int) : (if a ≠ 0 then a else r) = 0 ↔ a = 0 ∧ r = 0 := by
  by_cases h0 : a = 0
  · simp [h0]
  · simp [h0]

theorem compareRef_eq_zero (v w : Number) : compareRef v w = 0 ↔ v = w := by
  obtain ⟨a1, a2, a3, a4, a5⟩ := v
  obtain ⟨b1, b2, b3, b4, b5⟩ := w
  unfold compareRef
  simp only [firstDiff_cons, zero_step, cmpInt_eq_zero, cmpTag_eq_zero, Number.mk.injEq]
  simp [firstDiff]

theorem compareRef_range (v w : Number) : -1 ≤ compareRef v w ∧ compareRef v w ≤ 1 :=
  (compareRef_coherent v w v).1

theorem lessAgrees_int (a b : Int) {l : Bool} {r : Int} (h : LessAgrees l r) :
    LessAgrees (if a ≠ b then decide (a < b) else l)
      (if cmpInt a b ≠ 0 then cmpInt a b else r) := by
  by_cases hab : a = b
  · subst hab
    simpa [cmpInt] using h
  · by_cases hlt : a < b
    · simp [LessAgrees, cmpInt, hab, hlt]
    · simp [LessAgrees, cmpInt, hab, hlt]

theorem lessAgrees_tag (a b : String) {l : Bool} {r : Int} (h : LessAgrees l r) :
    LessAgrees (if a ≠ b then (if a = "" then false else if b = "" then true
        else decide (a.data < b.data)) else l)
      (if cmpTag a b ≠ 0 then cmpTag a b else r) := by
  have hlt : a.data < b.data ↔ a < b := String.lt_iff_toList_lt.symm
  by_cases hab : a = b
  · subst hab
    simpa [cmpTag] using h
  · by_cases ha : a = ""
    · subst ha
      simp [LessAgrees, cmpTag, hab]
    · by_cases hb : b = ""
      · subst hb
        simp [LessAgrees, cmpTag, hab, ha]
      · by_cases hl : a < b
        · simp [LessAgrees, cmpTag, hab, ha, hb, hl, hlt]
        · simp [LessAgrees, cmpTag, hab, ha, hb, hl, hlt]

/-- The code's `Compare` computes the reference order. -/
theorem compare_eq_compareRef (v w : Number) : v.Compare w = compareRef v w := by
  by_cases hvw : v = w
  · have h0 := (compareRef_eq_zero v w).2 hvw
    rw [h0]; unfold Number.Compare; simp [hvw]
  · have hne : compareRef v w ≠ 0 := fun h => hvw ((compareRef_eq_zero v w).1 h)
    have base : LessAgrees false (firstDiff []) := by simp [LessAgrees, firstDiff]
    have key := lessAgrees_int v.Major w.Major (lessAgrees_int v.Minor w.Minor
      (lessAgrees_tag v.Tag w.Tag (lessAgrees_int v.Patch w.Patch
        (lessAgrees_int v.Build w.Build base))))
    have := key hne
    unfold Number.Compare
    simp only [hvw, if_false]
    exact this.symm

/-! ## The matcher: what a match looks like -/

theorem mem_repRun (cc : CharClass) (hi : Nat) : ∀ (lo : Nat) (s t : List Char),
    t ∈ repRun cc lo hi s ↔
      ∃ pre, s = pre ++ t ∧ lo ≤ pre.length ∧ pre.length ≤ hi ∧ ∀ c ∈ pre, cc.test c = true := by
  induction hi with
  | zero =>
    intro lo s t
    simp only [repRun]
    constructor
    · intro h
      by_cases hlo : lo = 0
      · simp [hlo] at h
        exact ⟨[], by simp [h], by omega, by simp, by simp⟩
      · simp [hlo] at h
    · rintro ⟨pre, hs, h1, h2, h3⟩
      have : pre = [] := by
        cases pre with
        | nil => rfl
        | cons c p => simp at h2
      subst this
      simp at h1 hs
      simp [h1, hs]
  | succ hi ih =>
    intro lo s t
    simp only [repRun, List.mem_append]
    constructor
    · rintro (h | h)
      · cases s with
        | nil => simp at h
        | cons c s' =>
          by_cases hc : cc.test c = true
          · simp only [hc, if_true] at h
            obtain ⟨pre, hs, h1, h2, h3⟩ := (ih _ _ _).1 h
            refine ⟨c :: pre, by simp [hs], by simp; omega, by simp; omega, ?_⟩
            intro d hd
            rcases List.mem_cons.1 hd with rfl | hd
            · exact hc
            · exact h3 d hd
          · simp [hc] at h
      · by_cases hlo : lo = 0
        · simp [hlo] at h
          exact ⟨[], by simp [h], by omega, by simp, by simp⟩
        · simp [hlo] at h
    · rintro ⟨pre, hs, h1, h2, h3⟩
      cases pre with
      | nil =>
        right
        simp at h1 hs
        simp [h1, hs]
      | cons c p =>
        left
        subst hs
        have hc : cc.test c = true := h3 c (List.mem_cons_self _ _)
        simp only [List.cons_append, hc, if_true]
        refine (ih _ _ _).2 ⟨p, rfl, ?_, ?_, ?_⟩
        · simp at h1; omega
        · simp at h2; omega
        · intro d hd; exact h3 d (List.mem_cons_of_mem _ hd)

/-- Every result of the matcher is a match. -/
theorem run_sound (full : List Char) (r : Re) : ∀ (s : List Char) (caps : Caps) (p : List Char × Caps),
    p ∈ r.run full s caps → r.Matches full s p.1 := by
  induction r with
  | bot =>
    intro s caps p h
    simp only [Re.run] at h
    by_cases hl : s.length = full.length
    · simp [hl] at h; subst h; exact ⟨rfl, hl⟩
    · simp [hl] at h
  | eot =>
    intro s caps p h
    simp only [Re.run] at h
    by_cases hl : s = []
    · simp [hl] at h; subst h; exact ⟨hl.symm ▸ rfl, hl⟩
    · simp [hl] at h
  | chr cc =>
    intro s caps p h
    cases s with
    | nil => simp [Re.run] at h
    | cons c t =>
      simp only [Re.run] at h
      by_cases hc : cc.test c = true
      · simp [hc] at h; subst h; exact ⟨c, rfl, hc⟩
      · simp [hc] at h
  | seq a b iha ihb =>
    intro s caps p h
    simp only [Re.run, List.mem_flatMap] at h
    obtain ⟨q, hq, hp⟩ := h
    exact ⟨q.1, iha s caps q hq, ihb q.1 q.2 p hp⟩
  | alt a b iha ihb =>
    intro s caps p h
    simp only [Re.run, List.mem_append] at h
    rcases h with h | h
    · exact Or.inl (iha s caps p h)
    · exact Or.inr (ihb s caps p h)
  | opt r ih =>
    intro s caps p h
    simp only [Re.run, List.mem_append, List.mem_singleton] at h
    rcases h with h | h
    · exact Or.inl (ih s caps p h)
    · subst h; exact Or.inr rfl
  | rep cc lo hi =>
    intro s caps p h
    simp only [Re.run, List.mem_map] at h
    obtain ⟨t, ht, rfl⟩ := h
    exact (mem_repRun cc hi lo s t).1 ht
  | plus cc =>
    intro s caps p h
    simp only [Re.run, List.mem_map] at h
    obtain ⟨t, ht, rfl⟩ := h
    obtain ⟨pre, h1, h2, -, h4⟩ := (mem_repRun cc s.length 1 s t).1 ht
    exact ⟨pre, h1, h2, h4⟩
  | group i r ih =>
    intro s caps p h
    simp only [Re.run, List.mem_map] at h
    obtain ⟨q, hq, rfl⟩ := h
    exact ih s caps q hq

/-! ## The matcher: greedy repetition, computed -/

theorem repRun_zero_noHead (cc : CharClass) (hi : Nat) (rest : List Char) (h : NoHead cc rest) :
    repRun cc 0 hi rest = [rest] := by
  cases hi with
  | zero => simp [repRun]
  | succ hi =>
    cases rest with
    | nil => simp [repRun]
    | cons c t => simp [repRun, h c t rfl]

/-- Greedy repetition over a block `a` of class characters: first what consumes
all of `a` (and possibly more), then the shorter ways, each of which leaves an
input that starts with a character of the class. -/
theorem repRun_append (cc : CharClass) : ∀ (a rest : List Char) (lo hi : Nat),
    (∀ c ∈ a, cc.test c = true) → lo ≤ a.length → a.length ≤ hi →
    ∃ Y : List (List Char), repRun cc lo hi (a ++ rest) = repRun cc 0 (hi - a.length) rest ++ Y ∧
      ∀ y ∈ Y, ∃ c t, y = c :: t ∧ cc.test c = true := by
  intro a
  induction a with
  | nil =>
    intro rest lo hi _ hlo _
    simp at hlo
    subst hlo
    exact ⟨[], by simp, by simp⟩
  | cons c a ih =>
    intro rest lo hi hall hlo hhi
    cases hi with
    | zero => simp at hhi
    | succ hi =>
      have hc : cc.test c = true := hall c (List.mem_cons_self _ _)
      obtain ⟨Y, hY, hY'⟩ := ih rest (lo - 1) hi (fun d hd => hall d (List.mem_cons_of_mem _ hd))
        (by simp at hlo; omega) (by simp at hhi; omega)
      refine ⟨Y ++ (if lo = 0 then [c :: (a ++ rest)] else []), ?_, ?_⟩
      · simp only [List.cons_append, repRun, hc, if_true, hY, List.length_cons,
          Nat.add_sub_add_right, List.append_assoc]
      · intro y hy
        rcases List.mem_append.1 hy with hy | hy
        · exact hY' y hy
        · by_cases h0 : lo = 0
          · simp [h0] at hy; exact ⟨c, a ++ rest, hy, hc⟩
          · simp [h0] at hy

theorem flatMap_kills {β : Type} (cc : CharClass) (f : List Char → List β)
    (hf : ∀ c t, cc.test c = true → f (c :: t) = []) (Y : List (List Char))
    (hY : ∀ y ∈ Y, ∃ c t, y = c :: t ∧ cc.test c = true) : Y.flatMap f = [] := by
  rw [List.flatMap_eq_nil_iff]
  intro y hy
  obtain ⟨c, t, rfl, hc⟩ := hY y hy
  exact hf c t hc

theorem take_consumed (a rest : List Char) :
    (a ++ rest).take ((a ++ rest).length - rest.length) = a := by
  simp

/-! ### Continuation form: `(r.run full s caps).flatMap k` -/

theorem run_seq_flatMap {β : Type} (full : List Char) (a b : Re) (s : List Char) (caps : Caps)
    (k : List Char × Caps → List β) :
    ((Re.seq a b).run full s caps).flatMap k
      = (a.run full s caps).flatMap (fun p => (b.run full p.1 p.2).flatMap k) := by
  simp only [Re.run, List.flatMap_assoc]

theorem run_alt_flatMap {β : Type} (full : List Char) (a b : Re) (s : List Char) (caps : Caps)
    (k : List Char × Caps → List β) :
    ((Re.alt a b).run full s caps).flatMap k
      = (a.run full s caps).flatMap k ++ (b.run full s caps).flatMap k := by
  simp only [Re.run, List.flatMap_append]

theorem run_opt_flatMap {β : Type} (full : List Char) (r : Re) (s : List Char) (caps : Caps)
    (k : List Char × Caps → List β) :
    ((Re.opt r).run full s caps).flatMap k = (r.run full s caps).flatMap k ++ k (s, caps) := by
  simp only [Re.run, List.flatMap_append, List.flatMap_cons, List.flatMap_nil, List.append_nil]

theorem run_group_flatMap {β : Type} (full : List Char) (i : Nat) (r : Re) (s : List Char)
    (caps : Caps) (k : List Char × Caps → List β) :
    ((Re.group i r).run full s caps).flatMap k
      = (r.run full s caps).flatMap
          (fun p => k (p.1, p.2.set i (some (s.take (s.length - p.1.length))))) := by
  simp only [Re.run, List.flatMap_map, Function.comp]

theorem run_lit_flatMap {β : Type} (full : List Char) (c : Char) (t : List Char) (caps : Caps)
    (k : List Char × Caps → List β) :
    ((Re.chr (.lit c)).run full (c :: t) caps).flatMap k = k (t, caps) := by
  simp [Re.run, CharClass.test]

theorem run_chr_fail (full : List Char) (cc : CharClass) (c : Char) (t : List Char) (caps : Caps)
    (h : cc.test c = false) : (Re.chr cc).run full (c :: t) caps = [] := by
  simp [Re.run, h]

/-- A bounded greedy repetition on a maximal block `a`, followed by something
that cannot start with a class character: one way only. -/
theorem rep_flatMap_exact {β : Type} (full : List Char) (cc : CharClass) (lo hi : Nat)
    (a rest : List Char) (caps : Caps) (k : List Char × Caps → List β)
    (hall : ∀ c ∈ a, cc.test c = true) (hlo : lo ≤ a.length) (hhi : a.length ≤ hi)
    (hrest : NoHead cc rest) (hk : Kills cc k) :
    ((Re.rep cc lo hi).run full (a ++ rest) caps).flatMap k = k (rest, caps) := by
  obtain ⟨Y, hY, hY'⟩ := repRun_append cc a rest lo hi hall hlo hhi
  simp only [Re.run, hY, repRun_zero_noHead cc _ rest hrest, List.map_append,
    List.flatMap_append, List.map_cons, List.map_nil, List.flatMap_cons, List.flatMap_nil,
    List.append_nil]
  rw [List.flatMap_map]
  rw [flatMap_kills cc _ (fun c t hc => hk c t _ hc) Y hY']
  simp

/-- A bounded greedy repetition finds nothing when the input does not start
with a class character and at least one is required. -/
theorem rep_run_noHead (full : List Char) (cc : CharClass) (lo hi : Nat) (rest : List Char)
    (caps : Caps) (hlo : 1 ≤ lo) (hrest : NoHead cc rest) :
    (Re.rep cc lo hi).run full rest caps = [] := by
  have hl : lo ≠ 0 := by omega
  cases hi with
  | zero => simp [Re.run, repRun, hl]
  | succ hi =>
    cases rest with
    | nil => simp [Re.run, repRun, hl]
    | cons c t => simp [Re.run, repRun, hl, hrest c t rfl]

/-- Greedy `cc+` on a block `a` of class characters followed by one more class
character `x` and then a boundary: the first way consumes `a` and `x`, the
second leaves `x`, the others follow. -/
theorem plus_flatMap_first {β : Type} (full : List Char) (cc : CharClass)
    (a : List Char) (x : Char) (rest : List Char) (caps : Caps) (k : List Char × Caps → List β)
    (hall : ∀ c ∈ a, cc.test c = true) (hx : cc.test x = true) (hne : 1 ≤ a.length)
    (hrest : NoHead cc rest) :
    ∃ J : List β, ((Re.plus cc).run full (a ++ x :: rest) caps).flatMap k
      = k (rest, caps) ++ k (x :: rest, caps) ++ J := by
  obtain ⟨Y, hY, -⟩ := repRun_append cc a (x :: rest) 1 (a ++ x :: rest).length hall hne
    (by simp)
  have hlen : (a ++ x :: rest).length - a.length = rest.length + 1 := by
    simp
  refine ⟨(Y.map fun t => (t, caps)).flatMap k, ?_⟩
  simp only [Re.run, hY, hlen, repRun, hx, if_true, repRun_zero_noHead cc _ rest hrest,
    List.map_append, List.flatMap_append, List.map_cons, List.map_nil, List.flatMap_cons,
    List.flatMap_nil, List.append_nil, List.singleton_append, List.cons_append, List.nil_append,
    List.append_assoc]

/-! ### Character facts -/

theorem digit_ne_dot {c : Char} (h : isDigitChar c = true) : c ≠ '.' := by
  intro hc; subst hc; revert h; decide

theorem digit_ne_hyphen {c : Char} (h : isDigitChar c = true) : c ≠ '-' := by
  intro hc; subst hc; revert h; decide

theorem word_ne_dot {c : Char} (h : isWordChar c = true) : c ≠ '.' := by
  intro hc; subst hc; revert h; decide

theorem word_ne_hyphen {c : Char} (h : isWordChar c = true) : c ≠ '-' := by
  intro hc; subst hc; revert h; decide

theorem digit_is_word {c : Char} (h : isDigitChar c = true) : isWordChar c = true := by
  simp [isWordChar, h]

theorem digitsGroup_flatMap {β : Type} (full : List Char) (i : Nat)
    (a rest : List Char) (caps : Caps) (k : List Char × Caps → List β)
    (ha : IsD a) (hrest : NoHead .digit rest) (hk : Kills .digit k) :
    ((digitsGroup i).run full (a ++ rest) caps).flatMap k = k (rest, caps.set i (some a)) := by
  unfold digitsGroup
  rw [run_group_flatMap, rep_flatMap_exact full .digit 1 9 a rest caps _ ha.2.2 ha.1 ha.2.1 hrest]
  · simp
  · intro c t caps' hc
    exact hk c t _ hc

theorem digitsGroup_noHead (full : List Char) (i : Nat) (rest : List Char) (caps : Caps)
    (hrest : NoHead .digit rest) : (digitsGroup i).run full rest caps = [] := by
  unfold digitsGroup
  simp only [Re.run]
  have := rep_run_noHead full .digit 1 9 rest caps (le_refl 1) hrest
  simp only [Re.run] at this
  simp [this]

/-! ### The pieces of `numberBody` -/

theorem kills_of_run_lit {β : Type} (full : List Char) (cc : CharClass) (d : Char) (r : Re)
    (k : List Char × Caps → List β) (h : ∀ c, cc.test c = true → c ≠ d) :
    Kills cc (fun p => ((Re.seq (Re.chr (.lit d)) r).run full p.1 p.2).flatMap k) := by
  intro c t caps hc
  have : decide (c = d) = false := by simpa using h c hc
  simp [Re.run, CharClass.test, this]

theorem sepGroup_dot {β : Type} (full : List Char) (t : List Char) (caps : Caps)
    (k : List Char × Caps → List β) :
    (sepGroup.run full ('.' :: t) caps).flatMap k = k (t, caps.set 3 (some ['.'])) := by
  simp [sepGroup, Re.run, CharClass.test]

theorem sepGroup_digit (full : List Char) (c : Char) (t : List Char) (caps : Caps)
    (hc : isDigitChar c = true) : sepGroup.run full (c :: t) caps = [] := by
  simp [sepGroup, Re.run, CharClass.test, digit_ne_dot hc, digit_ne_hyphen hc]

theorem sepGroup_tag {β : Type} (full : List Char) (tag : List Char) (x : Char)
    (rest : List Char) (caps : Caps) (k : List Char × Caps → List β)
    (htag : IsW tag) (hx : isWordChar x = true) (hrest : NoHead .word rest) :
    ∃ J : List β, (sepGroup.run full ('-' :: (tag ++ x :: rest)) caps).flatMap k
      = k (rest, (caps.set 4 (some (tag ++ [x]))).set 3 (some ('-' :: (tag ++ [x]))))
        ++ k (x :: rest, (caps.set 4 (some tag)).set 3 (some ('-' :: tag))) ++ J := by
  unfold sepGroup
  rw [run_group_flatMap, run_alt_flatMap, run_chr_fail full _ '-' _ caps (by decide),
    List.flatMap_nil, List.nil_append, run_seq_flatMap, run_lit_flatMap, run_group_flatMap]
  obtain ⟨J, hJ⟩ := plus_flatMap_first full .word tag x rest caps
    (fun p => k (p.1, (p.2.set 4 (some ((tag ++ x :: rest).take
      ((tag ++ x :: rest).length - p.1.length)))).set 3 (some (('-' :: (tag ++ x :: rest)).take
        (('-' :: (tag ++ x :: rest)).length - p.1.length))))) htag.2 hx htag.1 hrest
  refine ⟨J, ?_⟩
  rw [hJ]
  have e1 : (tag ++ x :: rest).take ((tag ++ x :: rest).length - rest.length) = tag ++ [x] := by
    have := take_consumed (tag ++ [x]) rest
    simpa using this
  have e2 : (tag ++ x :: rest).take ((tag ++ x :: rest).length - (x :: rest).length) = tag :=
    take_consumed tag (x :: rest)
  have e3 : ('-' :: (tag ++ x :: rest)).take (('-' :: (tag ++ x :: rest)).length - rest.length)
      = '-' :: (tag ++ [x]) := by
    have := take_consumed ('-' :: (tag ++ [x])) rest
    simpa using this
  have e4 : ('-' :: (tag ++ x :: rest)).take
      (('-' :: (tag ++ x :: rest)).length - (x :: rest).length) = '-' :: tag :=
    take_consumed ('-' :: tag) (x :: rest)
  simp only [e1, e2, e3, e4]

theorem buildGroup_flatMap {β : Type} (full : List Char) (ob : Option (List Char))
    (rest : List Char) (caps : Caps) (k : List Char × Caps → List β)
    (hob : ∀ d, ob = some d → IsD d) (hrest : NoHead .digit rest)
    (hrest' : NoHead (.lit '.') rest) (hk : Kills .digit k) (hkdot : Kills (.lit '.') k) :
    (buildGroup.run full (buildText ob ++ rest) caps).flatMap k = k (rest, buildCaps caps ob) := by
  unfold buildGroup
  rw [run_opt_flatMap, run_group_flatMap]
  cases ob with
  | none =>
    simp only [buildText, buildCaps, List.nil_append]
    cases rest with
    | nil => simp [Re.run]
    | cons c t =>
      have : decide (c = '.') = false := by simpa [CharClass.test] using hrest' c t rfl
      simp [Re.run, CharClass.test, this]
  | some d =>
    have hd := hob d rfl
    simp only [buildText, buildCaps, List.cons_append]
    rw [run_seq_flatMap, run_lit_flatMap]
    dsimp only
    rw [rep_flatMap_exact full .digit 1 9 d rest caps
      (fun p => k (p.1, List.set p.2 6 (some (List.take (('.' :: (d ++ rest)).length - p.1.length)
        ('.' :: (d ++ rest)))))) hd.2.2 hd.1 hd.2.1 hrest (fun c t caps' hc => hk c t _ hc)]
    have e : ('.' :: (d ++ rest)).take (('.' :: (d ++ rest)).length - rest.length) = '.' :: d :=
      take_consumed ('.' :: d) rest
    simp only [e]
    rw [hkdot '.' (d ++ rest) caps (by simp [CharClass.test])]
    simp

theorem noHead_digit_of_word {rest : List Char} (h : NoHead .word rest) : NoHead .digit rest := by
  intro c t hc
  have := h c t hc
  simp only [CharClass.test] at this ⊢
  by_contra hd
  have hd' : isDigitChar c = true := by simpa using hd
  rw [digit_is_word hd'] at this
  exact Bool.noConfusion this

theorem kills_buildGroup {β : Type} (full : List Char) (k : List Char × Caps → List β)
    (hk : Kills .digit k) :
    Kills .digit (fun p => (buildGroup.run full p.1 p.2).flatMap k) := by
  intro c t caps hc
  have hc' : isDigitChar c = true := hc
  have : decide (c = '.') = false := by simpa using digit_ne_dot hc'
  simp [buildGroup, Re.run, CharClass.test, this, hk c t caps hc]

theorem noHead_sepText (tag rest : List Char) : NoHead .digit (sepText tag ++ rest) := by
  intro x t hx
  unfold sepText at hx
  split_ifs at hx
  · injection hx with h1 h2; subst h1; decide
  · injection hx with h1 h2; subst h1; decide

theorem kills_sepGroup {β : Type} (full : List Char) (r : Re) (k : List Char × Caps → List β) :
    Kills .digit (fun p => ((Re.seq sepGroup r).run full p.1 p.2).flatMap k) := by
  intro x t caps' hx
  dsimp only
  rw [run_seq_flatMap, sepGroup_digit full x t caps' hx]
  rfl

theorem numberBody_flatMap {β : Type} (full : List Char) (a b tag c rest : List Char)
    (caps : Caps) (k : List Char × Caps → List β)
    (ha : IsD a) (hb : IsD b) (hc : PatchOk tag c) (hrest : NoHead .word rest)
    (hk : Kills .digit k) :
    ∃ J : List β,
      (numberBody.run full (a ++ '.' :: (b ++ (sepText tag ++ (c ++ rest)))) caps).flatMap k
        = (buildGroup.run full rest
            ((sepCaps ((caps.set 1 (some a)).set 2 (some b)) tag).set 5 (some c))).flatMap k
          ++ J := by
  have hrd : NoHead .digit rest := noHead_digit_of_word hrest
  unfold numberBody
  rw [run_seq_flatMap]
  have h1 : NoHead .digit ('.' :: (b ++ (sepText tag ++ (c ++ rest)))) := by
    intro x t hx; injection hx with h1 h2; subst h1; decide
  rw [digitsGroup_flatMap full 1 a _ caps _ ha h1
    (kills_of_run_lit full .digit '.' _ k (fun x hx => digit_ne_dot hx))]
  dsimp only
  rw [run_seq_flatMap, run_lit_flatMap]
  dsimp only
  rw [run_seq_flatMap, digitsGroup_flatMap full 2 b _ _ _ hb (noHead_sepText tag _)
    (kills_sepGroup full _ k)]
  dsimp only
  rw [run_seq_flatMap]
  rcases hc with ⟨htag, hc⟩ | ⟨htag, x, hcx, hx⟩
  · subst htag
    simp only [sepText, sepCaps, if_true, List.singleton_append, List.cons_append, List.nil_append]
    rw [sepGroup_dot]
    dsimp only
    rw [run_seq_flatMap, digitsGroup_flatMap full 5 c rest _ _ hc hrd (kills_buildGroup full k hk)]
    exact ⟨[], by simp⟩
  · have hne : tag ≠ [] := by
      intro h; subst h; exact absurd htag.1 (by simp)
    subst hcx
    simp only [sepText, sepCaps, hne, if_false, List.cons_append, List.singleton_append,
      List.nil_append]
    obtain ⟨J, hJ⟩ := sepGroup_tag full tag x rest ((caps.set 1 (some a)).set 2 (some b))
      (fun p => ((Re.seq (digitsGroup 5) buildGroup).run full p.1 p.2).flatMap k)
      htag (digit_is_word hx) hrest
    rw [hJ]
    dsimp only
    refine ⟨J, ?_⟩
    rw [run_seq_flatMap, digitsGroup_noHead full 5 rest _ hrd, List.flatMap_nil, List.nil_append,
      run_seq_flatMap]
    have := digitsGroup_flatMap full 5 [x] rest
      (((caps.set 1 (some a)).set 2 (some b)).set 4 (some tag) |>.set 3 (some ('-' :: tag)))
      (fun p => (buildGroup.run full p.1 p.2).flatMap k)
      ⟨by simp, by simp, by simpa using hx⟩ hrd (kills_buildGroup full k hk)
    simp only [List.singleton_append] at this
    rw [this]

/-! ### The two patterns on a rendered text -/

theorem plus_flatMap_exact {β : Type} (full : List Char) (cc : CharClass)
    (a rest : List Char) (caps : Caps) (k : List Char × Caps → List β)
    (hall : ∀ c ∈ a, cc.test c = true) (hlo : 1 ≤ a.length)
    (hrest : NoHead cc rest) (hk : Kills cc k) :
    ((Re.plus cc).run full (a ++ rest) caps).flatMap k = k (rest, caps) := by
  have h := rep_flatMap_exact full cc 1 (a ++ rest).length a rest caps k hall hlo (by simp)
    hrest hk
  simpa only [Re.run] using h

theorem group_plus_flatMap {β : Type} (full : List Char) (cc : CharClass) (i : Nat)
    (a rest : List Char) (caps : Caps) (k : List Char × Caps → List β)
    (hall : ∀ c ∈ a, cc.test c = true) (hlo : 1 ≤ a.length)
    (hrest : NoHead cc rest) (hk : Kills cc k) :
    ((Re.group i (.plus cc)).run full (a ++ rest) caps).flatMap k
      = k (rest, caps.set i (some a)) := by
  rw [run_group_flatMap, plus_flatMap_exact full cc a rest caps
    (fun p => k (p.1, List.set p.2 i (some (List.take ((a ++ rest).length - p.1.length)
      (a ++ rest))))) hall hlo hrest (fun c t caps' hc => hk c t _ hc)]
  simp

theorem kills_eot (full : List Char) (cc : CharClass) :
    Kills cc (fun p => Re.eot.run full p.1 p.2) := by
  intro c t caps _
  simp [Re.run]

theorem noHead_nil (cc : CharClass) : NoHead cc [] := by
  intro c t h; cases h

theorem noHead_cons (cc : CharClass) (x : Char) (t : List Char) (h : cc.test x = false) :
    NoHead cc (x :: t) := by
  intro c t' hc
  injection hc with h1 h2
  subst h1; exact h

theorem noHead_buildText (cc : CharClass) (ob : Option (List Char)) (rest : List Char)
    (hdot : cc.test '.' = false) (h : NoHead cc rest) : NoHead cc (buildText ob ++ rest) := by
  cases ob with
  | none => simpa [buildText] using h
  | some d => exact noHead_cons cc '.' _ hdot

theorem numberBody_build_flatMap {β : Type} (full : List Char) (a b tag c : List Char)
    (ob : Option (List Char)) (rest : List Char)
    (caps : Caps) (k : List Char × Caps → List β)
    (ha : IsD a) (hb : IsD b) (hc : PatchOk tag c) (hob : ∀ d, ob = some d → IsD d)
    (hrest : NoHead .word rest) (hrest' : NoHead (.lit '.') rest)
    (hk : Kills .digit k) (hk' : Kills (.lit '.') k) :
    ∃ J : List β,
      (numberBody.run full (numberText a b tag c ob ++ rest) caps).flatMap k
        = k (rest, numberCaps caps a b tag c ob) ++ J := by
  obtain ⟨J, hJ⟩ := numberBody_flatMap full a b tag c (buildText ob ++ rest) caps k ha hb hc
    (noHead_buildText .word ob rest (by decide) hrest) hk
  refine ⟨J, ?_⟩
  have e : numberText a b tag c ob ++ rest
      = a ++ '.' :: (b ++ (sepText tag ++ (c ++ (buildText ob ++ rest)))) := by
    simp [numberText]
  rw [e, hJ, buildGroup_flatMap full ob rest _ k hob (noHead_digit_of_word hrest) hrest' hk hk']
  rfl

theorem numberPat_run (s : List Char) (caps : Caps) :
    numberPat.run s s caps = (numberBody.run s s caps).flatMap (fun p => Re.eot.run s p.1 p.2) := by
  simp [numberPat, Re.run]

theorem numberPat_run_text (a b tag c : List Char) (ob : Option (List Char)) (caps : Caps)
    (ha : IsD a) (hb : IsD b) (hc : PatchOk tag c) (hob : ∀ d, ob = some d → IsD d) :
    ∃ J, numberPat.run (numberText a b tag c ob) (numberText a b tag c ob) caps
      = ([], numberCaps caps a b tag c ob) :: J := by
  obtain ⟨J, hJ⟩ := numberBody_build_flatMap (numberText a b tag c ob) a b tag c ob [] caps
    (fun p => Re.eot.run (numberText a b tag c ob) p.1 p.2) ha hb hc hob
    (noHead_nil _) (noHead_nil _) (kills_eot _ _) (kills_eot _ _)
  refine ⟨J, ?_⟩
  rw [numberPat_run]
  simp only [List.append_nil] at hJ
  rw [hJ]
  simp [Re.run]

/-- A pattern that starts with `^` finds nothing at a later offset. -/
theorem searchFrom_bot (r : Re) (full : List Char) (caps0 : Caps) : ∀ s : List Char,
    s.length < full.length → searchFrom (.seq .bot r) full caps0 s = none := by
  intro s
  induction s with
  | nil =>
    intro h
    have : ¬ (0 = full.length) := by simp at h; omega
    simp [searchFrom, Re.run, this]
  | cons c t ih =>
    intro h
    have h1 : ¬ (t.length + 1 = full.length) := by simp at h; omega
    have h2 : t.length < full.length := by simp at h; omega
    simp [searchFrom, Re.run, h1, ih h2]

/-- A pattern that starts with `^`: only offset 0 counts. -/
theorem searchFrom_bot_full (r : Re) (full : List Char) (caps0 : Caps) :
    searchFrom (.seq .bot r) full caps0 full
      = ((Re.run full (.seq .bot r) full caps0).head?).map fun p => (full, p) := by
  cases full with
  | nil => simp [searchFrom]
  | cons c t =>
    cases h : Re.run (c :: t) (.seq .bot r) (c :: t) caps0 with
    | nil =>
      have := searchFrom_bot r (c :: t) caps0 t (by simp)
      simp [searchFrom, h, this]
    | cons p l => simp [searchFrom, h]

theorem numberPat_numSubexp : numberPat.numSubexp = 6 := by decide

theorem binaryPat_numSubexp : binaryPat.numSubexp = 8 := by decide

/-- What `FindStringSubmatch` returns with `numberPat` on a canonical text. -/
theorem find_numberText (a b tag c : List Char) (ob : Option (List Char))
    (ha : IsD a) (hb : IsD b) (hc : PatchOk tag c) (hob : ∀ d, ob = some d → IsD d) :
    FindStringSubmatch numberPat (String.mk (numberText a b tag c ob))
      = some [String.mk (numberText a b tag c ob), String.mk a, String.mk b,
          String.mk (sepText tag), String.mk tag, String.mk c, String.mk (buildText ob)] := by
  obtain ⟨J, hJ⟩ := numberPat_run_text a b tag c ob (List.replicate 7 none) ha hb hc hob
  have hs : searchFrom numberPat (numberText a b tag c ob) (List.replicate 7 none)
      (numberText a b tag c ob)
      = some (numberText a b tag c ob, [], numberCaps (List.replicate 7 none) a b tag c ob) := by
    have := searchFrom_bot_full (.seq numberBody .eot) (numberText a b tag c ob)
      (List.replicate 7 none)
    rw [show Re.seq .bot (.seq numberBody .eot) = numberPat from rfl] at this
    rw [this, hJ]
    rfl
  unfold FindStringSubmatch
  rw [numberPat_numSubexp]
  simp only [hs]
  by_cases htag : tag = []
  · subst htag
    cases ob with
    | none =>
      simp [numberCaps, buildCaps, sepCaps, List.replicate, capText, buildText, sepText]
    | some d =>
      simp [numberCaps, buildCaps, sepCaps, List.replicate, capText, buildText, sepText]
  · cases ob with
    | none => simp [numberCaps, buildCaps, sepCaps, List.replicate, capText, buildText, htag, sepText]
    | some d => simp [numberCaps, buildCaps, sepCaps, List.replicate, capText, buildText, htag, sepText]

/-! ## Integer conversion and formatting -/

theorem isDigitChar_iff (c : Char) : isDigitChar c = true ↔ 48 ≤ c.toNat ∧ c.toNat ≤ 57 := by
  unfold isDigitChar
  simp only [Bool.and_eq_true, decide_eq_true_eq]
  rfl

theorem digitChar_isDigit (d : Nat) (h : d < 10) :
    isDigitChar (Nat.digitChar d) = true ∧ (Nat.digitChar d).toNat - 48 = d := by
  interval_cases d <;> decide

theorem digitVal_of_digit {c : Char} (h : isDigitChar c = true) :
    digitVal c = some (c.toNat - 48) := by
  simp [digitVal, h]

theorem parseUint_digits : ∀ (l : List Char) (acc : Nat), (∀ c ∈ l, isDigitChar c = true) →
    acc * 10 ^ l.length + decimalValue l < 2 ^ 64 →
    parseUint l acc = (acc * 10 ^ l.length + decimalValue l, none) := by
  intro l
  induction l with
  | nil => intro acc _ _; simp [parseUint, decimalValue]
  | cons c t ih =>
    intro acc h hlt
    have hc : isDigitChar c = true := h c (List.mem_cons_self _ _)
    have e : (acc * 10 + (c.toNat - 48)) * 10 ^ t.length + decimalValue t
        = acc * 10 ^ (c :: t).length + decimalValue (c :: t) := by
      simp only [decimalValue, List.length_cons, pow_succ]
      ring
    have hp : 1 ≤ 10 ^ t.length := Nat.one_le_pow _ _ (by norm_num)
    have hstep : ¬ 2 ^ 64 ≤ acc * 10 + (c.toNat - 48) := by
      have h1 : acc * 10 + (c.toNat - 48) ≤ (acc * 10 + (c.toNat - 48)) * 10 ^ t.length :=
        Nat.le_mul_of_pos_right _ hp
      omega
    simp only [parseUint, digitVal_of_digit hc, hstep, if_false]
    rw [ih _ (fun d hd => h d (List.mem_cons_of_mem _ hd)) (by rw [e]; exact hlt), e]

theorem decimalValue_lt : ∀ (l : List Char), (∀ c ∈ l, isDigitChar c = true) →
    decimalValue l < 10 ^ l.length := by
  intro l
  induction l with
  | nil => intro _; simp [decimalValue]
  | cons c t ih =>
    intro h
    have hc := (isDigitChar_iff c).1 (h c (List.mem_cons_self _ _))
    have ht := ih (fun d hd => h d (List.mem_cons_of_mem _ hd))
    simp only [decimalValue, List.length_cons, pow_succ]
    have h9 : c.toNat - 48 ≤ 9 := by omega
    have hp : 0 < 10 ^ t.length := by positivity
    nlinarith

theorem decimalValue_lt_of_isD {l : List Char} (h : IsD l) : decimalValue l < 10 ^ 9 := by
  have h1 := decimalValue_lt l h.2.2
  have h2 : 10 ^ l.length ≤ 10 ^ 9 := Nat.pow_le_pow_right (by norm_num) h.2.1
  omega

/-- The result of `strconv.Atoi` on a string of digits that fits. -/
theorem strconvAtoi_digits (l : List Char) (hne : l ≠ []) (h : ∀ c ∈ l, isDigitChar c = true)
    (hlt : decimalValue l < 2 ^ 63) :
    strconvAtoi (String.mk l) = ((decimalValue l : Int), none) := by
  cases l with
  | nil => exact absurd rfl hne
  | cons c t =>
    have hc : isDigitChar c = true := h c (List.mem_cons_self _ _)
    have h1 : ¬ c = '-' := digit_ne_hyphen hc
    have h2 : ¬ c = '+' := by
      intro e; subst e; revert hc; decide
    have hlt64 : 0 * 10 ^ (c :: t).length + decimalValue (c :: t) < 2 ^ 64 := by
      norm_num at hlt ⊢; omega
    have hp := parseUint_digits (c :: t) 0 h hlt64
    simp only [Nat.zero_mul, Nat.zero_add] at hp
    unfold strconvAtoi
    simp only [h1, h2, if_false, hp]
    have hlt' : decimalValue (c :: t) < 9223372036854775808 := by
      norm_num at hlt; exact hlt
    simp [hlt']

theorem atoi_digits (l : List Char) (h : IsD l) : atoi (String.mk l) = some (decimalValue l : Int) := by
  have hne : l ≠ [] := by
    intro e; subst e; exact absurd h.1 (by simp)
  have hlt : decimalValue l < 2 ^ 63 := by
    have := decimalValue_lt_of_isD h
    norm_num at this ⊢
    omega
  unfold atoi
  rw [strconvAtoi_digits l hne h.2.2 hlt]

/-! ### `fmtUint` -/

theorem fmtUintAux_fuel : ∀ (f1 f2 u : Nat) (acc : List Char), u ≤ f1 → u ≤ f2 →
    fmtUintAux f1 u acc = fmtUintAux f2 u acc := by
  intro f1
  induction f1 with
  | zero =>
    intro f2 u acc h1 h2
    have hu : u = 0 := by omega
    subst hu
    cases f2 with
    | zero => rfl
    | succ f2 => simp [fmtUintAux]
  | succ f1 ih =>
    intro f2 u acc h1 h2
    cases f2 with
    | zero =>
      have hu : u = 0 := by omega
      subst hu
      simp [fmtUintAux]
    | succ f2 =>
      simp only [fmtUintAux]
      by_cases h10 : 10 ≤ u
      · simp only [h10, if_true]
        exact ih f2 (u / 10) _ (by omega) (by omega)
      · simp only [h10, if_false]

theorem fmtUintAux_acc : ∀ (f u : Nat) (acc : List Char),
    fmtUintAux f u acc = fmtUintAux f u [] ++ acc := by
  intro f
  induction f with
  | zero => intro u acc; simp [fmtUintAux]
  | succ f ih =>
    intro u acc
    simp only [fmtUintAux]
    by_cases h10 : 10 ≤ u
    · simp only [h10, if_true]
      rw [ih (u / 10) (_ :: acc), ih (u / 10) [_]]
      simp
    · simp only [h10, if_false]
      simp

/-- The loop of `fmtUint`, as a recursion on the number. -/
theorem fmtUint_eq (u : Nat) :
    fmtUint u = if 10 ≤ u then fmtUint (u / 10) ++ [Nat.digitChar (u % 10)]
      else [Nat.digitChar u] := by
  unfold fmtUint
  cases u with
  | zero => simp [fmtUintAux]
  | succ n =>
    simp only [fmtUintAux]
    by_cases h10 : 10 ≤ n + 1
    · simp only [h10, if_true]
      rw [fmtUintAux_acc, fmtUintAux_fuel n ((n + 1) / 10) ((n + 1) / 10) [] (by omega) (le_refl _)]
    · simp only [h10, if_false]

theorem fmtUint_small (u : Nat) (h : u < 10) : fmtUint u = [Nat.digitChar u] := by
  rw [fmtUint_eq]; simp; omega

theorem fmtUint_digits (u : Nat) : ∀ c ∈ fmtUint u, isDigitChar c = true := by
  induction u using Nat.strong_induction_on with
  | _ u ih =>
    rw [fmtUint_eq]
    by_cases h10 : 10 ≤ u
    · simp only [h10, if_true]
      intro c hc
      rcases List.mem_append.1 hc with hc | hc
      · exact ih (u / 10) (by omega) c hc
      · simp at hc; subst hc
        exact (digitChar_isDigit (u % 10) (Nat.mod_lt _ (by norm_num))).1
    · simp only [h10, if_false]
      intro c hc
      simp at hc; subst hc
      exact (digitChar_isDigit u (by omega)).1

theorem fmtUint_length_pos (u : Nat) : 1 ≤ (fmtUint u).length := by
  rw [fmtUint_eq]
  split_ifs <;> simp

theorem fmtUint_length_le : ∀ (k u : Nat), 1 ≤ k → u < 10 ^ k → (fmtUint u).length ≤ k := by
  intro k
  induction k with
  | zero => intro u h; omega
  | succ k ih =>
    intro u _ hu
    rw [fmtUint_eq]
    by_cases h10 : 10 ≤ u
    · simp only [h10, if_true, List.length_append, List.length_singleton]
      have hk : 1 ≤ k := by
        rcases Nat.eq_zero_or_pos k with h0 | h0
        · subst h0; simp at hu; omega
        · exact h0
      have : u / 10 < 10 ^ k := by
        rw [Nat.div_lt_iff_lt_mul (by norm_num)]
        rw [pow_succ] at hu; exact hu
      have := ih (u / 10) hk this
      omega
    · simp only [h10, if_false, List.length_singleton]
      omega

theorem decimalValue_append_single (l : List Char) (c : Char) :
    decimalValue (l ++ [c]) = decimalValue l * 10 + (c.toNat - 48) := by
  induction l with
  | nil => simp [decimalValue]
  | cons d t ih =>
    have e : decimalValue (d :: (t ++ [c]))
        = (d.toNat - 48) * 10 ^ (t ++ [c]).length + decimalValue (t ++ [c]) := rfl
    rw [List.cons_append, e, ih, List.length_append, List.length_singleton, pow_succ]
    simp only [decimalValue]
    ring

theorem decimalValue_fmtUint (u : Nat) : decimalValue (fmtUint u) = u := by
  induction u using Nat.strong_induction_on with
  | _ u ih =>
    rw [fmtUint_eq]
    by_cases h10 : 10 ≤ u
    · simp only [h10, if_true]
      rw [decimalValue_append_single, ih (u / 10) (by omega),
        (digitChar_isDigit (u % 10) (Nat.mod_lt _ (by norm_num))).2]
      omega
    · simp only [h10, if_false]
      simp [decimalValue, (digitChar_isDigit u (by omega)).2]

/-- The digits of a number from 10 on do not start with `0`. -/
theorem fmtUint_head (u : Nat) (h : 1 ≤ u) : (fmtUint u).head? ≠ some '0' := by
  induction u using Nat.strong_induction_on with
  | _ u ih =>
    rw [fmtUint_eq]
    by_cases h10 : 10 ≤ u
    · simp only [h10, if_true]
      have hpos := fmtUint_length_pos (u / 10)
      have := ih (u / 10) (by omega) (by omega)
      cases hl : fmtUint (u / 10) with
      | nil => rw [hl] at hpos; simp at hpos
      | cons d t => rw [hl] at this; simpa using this
    · simp only [h10, if_false]
      have hu : u < 10 := by omega
      interval_cases u <;> decide

theorem fmtUint_isD (u : Nat) (h : u < 10 ^ 9) : IsD (fmtUint u) :=
  ⟨fmtUint_length_pos u, fmtUint_length_le 9 u (by norm_num) h, fmtUint_digits u⟩

theorem fmtD_nonneg (n : Int) (h : 0 ≤ n) : fmtD n = String.mk (fmtUint n.toNat) := by
  unfold fmtD
  have : ¬ n < 0 := by omega
  simp only [this, if_false]
  congr 2
  omega

/-! ## `Parse` on canonical texts and on the grammar -/

theorem patchOk_isD {tag c : List Char} (h : PatchOk tag c) : IsD c := by
  rcases h with ⟨-, h⟩ | ⟨-, x, rfl, hx⟩
  · exact h
  · exact ⟨by simp, by simp, by simpa using hx⟩

/-- The result of `Parse` on a canonical text. -/
theorem parse_numberText (a b tag c : List Char) (ob : Option (List Char))
    (ha : IsD a) (hb : IsD b) (hc : PatchOk tag c) (hob : ∀ d, ob = some d → IsD d) :
    Parse (String.mk (numberText a b tag c ob))
      = some ({ Major := decimalValue a, Minor := decimalValue b, Tag := String.mk tag,
                Patch := decimalValue c, Build := buildValue ob }, none) := by
  unfold Parse
  rw [find_numberText a b tag c ob ha hb hc hob]
  simp only [List.getD_cons_succ, List.getD_cons_zero, atoi_digits a ha, atoi_digits b hb,
    atoi_digits c (patchOk_isD hc)]
  cases ob with
  | none =>
    simp [buildText, buildValue]
  | some d =>
    have hd := hob d rfl
    have hne : (String.mk ('.' :: d)) ≠ "" := by
      intro h
      have h' := congrArg String.data h
      exact List.cons_ne_nil _ _ h'
    simp [buildText, buildValue, sliceFrom, atoi_digits d hd, hne]

theorem matches_numberBody (full s t : List Char) (h : numberBody.Matches full s t) :
    ∃ major minor sep patch build : List Char,
      s = major ++ '.' :: (minor ++ (sep ++ (patch ++ (build ++ t)))) ∧
      IsD major ∧ IsD minor ∧ (sep = ['.'] ∨ ∃ w, IsW w ∧ sep = '-' :: w) ∧ IsD patch ∧
      (build = [] ∨ ∃ d, IsD d ∧ build = '.' :: d) := by
  simp only [numberBody, digitsGroup, sepGroup, buildGroup, Re.Matches, CharClass.test,
    decide_eq_true_eq] at h
  obtain ⟨m2, ⟨major, rfl, hM1, hM2, hM3⟩, m3, ⟨c1, rfl, rfl⟩, m4, ⟨minor, rfl, hm1, hm2, hm3⟩,
    m5, hsep, m6, ⟨patch, rfl, hp1, hp2, hp3⟩, hbuild⟩ := h
  have hb : ∃ build, m6 = build ++ t ∧ (build = [] ∨ ∃ d, IsD d ∧ build = '.' :: d) := by
    rcases hbuild with ⟨m7, ⟨c2, rfl, rfl⟩, d, rfl, hd1, hd2, hd3⟩ | rfl
    · exact ⟨'.' :: d, by simp, Or.inr ⟨d, ⟨hd1, hd2, hd3⟩, rfl⟩⟩
    · exact ⟨[], by simp, Or.inl rfl⟩
  obtain ⟨build, rfl, hbuild'⟩ := hb
  rcases hsep with ⟨c3, rfl, rfl⟩ | ⟨m8, ⟨c3, rfl, rfl⟩, w, rfl, hw1, hw2⟩
  · exact ⟨major, minor, ['.'], patch, build, by simp, ⟨hM1, hM2, hM3⟩, ⟨hm1, hm2, hm3⟩,
      Or.inl rfl, ⟨hp1, hp2, hp3⟩, hbuild'⟩
  · exact ⟨major, minor, '-' :: w, patch, build, by simp, ⟨hM1, hM2, hM3⟩, ⟨hm1, hm2, hm3⟩,
      Or.inr ⟨w, ⟨hw1, hw2⟩, rfl⟩, ⟨hp1, hp2, hp3⟩, hbuild'⟩

theorem matches_numberPat (s t : List Char) (h : numberPat.Matches s s t) :
    NumberGrammar (String.mk s) := by
  change ∃ m, (m = s ∧ s.length = s.length) ∧
    ∃ m2, numberBody.Matches s m m2 ∧ (t = m2 ∧ m2 = []) at h
  obtain ⟨m, ⟨rfl, -⟩, m1, hbody, rfl, rfl⟩ := h
  obtain ⟨major, minor, sep, patch, build, hs, h1, h2, h3, h4, h5⟩ := matches_numberBody _ _ _ hbody
  exact ⟨major, minor, sep, patch, build, by simpa using hs, h1, h2, h3, h4, h5⟩

/-- What `FindStringSubmatch` finds with `numberPat` is in the grammar. -/
theorem find_numberPat_sound (s : String) (m : List String)
    (h : FindStringSubmatch numberPat s = some m) : NumberGrammar s := by
  unfold FindStringSubmatch at h
  have hb := searchFrom_bot_full (.seq numberBody .eot) s.data
    (List.replicate (numberPat.numSubexp + 1) none)
  rw [show Re.seq .bot (.seq numberBody .eot) = numberPat from rfl] at hb
  rw [hb] at h
  cases hr : Re.run s.data numberPat s.data (List.replicate (numberPat.numSubexp + 1) none) with
  | nil => rw [hr] at h; simp at h
  | cons p l =>
    have hp : p ∈ Re.run s.data numberPat s.data (List.replicate (numberPat.numSubexp + 1) none) := by
      rw [hr]; exact List.mem_cons_self _ _
    exact matches_numberPat s.data p.1 (run_sound _ _ _ _ _ hp)

/-! ## Rendering, and the grammar as canonical text -/

theorem dot_data : (".": String).data = ['.'] := rfl
theorem hyphen_data : ("-": String).data = ['-'] := rfl

theorem tag_empty_iff (t : String) : t = "" ↔ t.data = [] := by
  constructor
  · intro h; subst h; rfl
  · intro h; exact String.ext h

/-- The rendering `Number.String` in terms of the parts of the canonical text. -/
theorem number_string_eq (v : Number) (h1 : 0 ≤ v.Major) (h2 : 0 ≤ v.Minor) (h3 : 0 ≤ v.Patch)
    (h4 : 0 ≤ v.Build) :
    v.String = String.mk (numberText (fmtUint v.Major.toNat) (fmtUint v.Minor.toNat) v.Tag.data
      (fmtUint v.Patch.toNat) (buildOf v.Build)) := by
  apply String.ext
  unfold Number.String numberText sepText buildOf
  rw [fmtD_nonneg _ h1, fmtD_nonneg _ h2, fmtD_nonneg _ h3, fmtD_nonneg _ h4]
  by_cases ht : v.Tag = ""
  · have ht' : v.Tag.data = [] := (tag_empty_iff _).1 ht
    by_cases hb : v.Build > 0
    · simp [ht, ht', hb, buildText, dot_data]
    · simp [ht, ht', hb, buildText, dot_data]
  · have ht' : ¬ v.Tag.data = [] := fun h => ht ((tag_empty_iff _).2 h)
    by_cases hb : v.Build > 0
    · simp [ht, ht', hb, buildText, dot_data, hyphen_data]
    · simp [ht, ht', hb, buildText, dot_data, hyphen_data]

theorem buildOf_isD (n : Int) (h : n ≤ 999999999) : ∀ d, buildOf n = some d → IsD d := by
  intro d hd
  unfold buildOf at hd
  split_ifs at hd with hpos
  injection hd with hd
  subst hd
  exact fmtUint_isD _ (by omega)

theorem buildValue_buildOf (n : Int) (h : 0 ≤ n) : buildValue (buildOf n) = n := by
  unfold buildOf
  split_ifs with hpos
  · simp only [buildValue, decimalValue_fmtUint]; omega
  · simp only [buildValue]; omega

/-- From the parts of the grammar to the parts of a canonical text whose first
match is the one the matcher takes. -/
theorem grammar_text (major minor sep patch build : List Char)
    (h1 : IsD major) (h2 : IsD minor) (h3 : sep = ['.'] ∨ ∃ w, IsW w ∧ sep = '-' :: w)
    (h4 : IsD patch) (h5 : build = [] ∨ ∃ d, IsD d ∧ build = '.' :: d) :
    ∃ tag c ob, major ++ '.' :: (minor ++ (sep ++ (patch ++ build))) = numberText major minor tag c ob
      ∧ PatchOk tag c ∧ (∀ d, ob = some d → IsD d) := by
  have hob : ∃ ob, build = buildText ob ∧ (∀ d, ob = some d → IsD d) := by
    rcases h5 with rfl | ⟨d, hd, rfl⟩
    · exact ⟨none, rfl, by intro d h; cases h⟩
    · exact ⟨some d, rfl, by intro d' h; injection h with h; subst h; exact hd⟩
  obtain ⟨ob, rfl, hob⟩ := hob
  rcases h3 with rfl | ⟨w, hw, rfl⟩
  · exact ⟨[], patch, ob, by simp [numberText, sepText], Or.inl ⟨rfl, h4⟩, hob⟩
  · have hne : patch ≠ [] := by
      intro e; subst e; exact absurd h4.1 (by simp)
    have hsplit : patch = patch.dropLast ++ [patch.getLast hne] :=
      (List.dropLast_append_getLast hne).symm
    have hx : isDigitChar (patch.getLast hne) = true := h4.2.2 _ (List.getLast_mem hne)
    have htag : IsW (w ++ patch.dropLast) := by
      refine ⟨by have := hw.1; simp; omega, ?_⟩
      intro c hc
      rcases List.mem_append.1 hc with hc | hc
      · exact hw.2 c hc
      · exact digit_is_word (h4.2.2 c (List.mem_of_mem_dropLast hc))
    have hne' : ¬ (w ++ patch.dropLast = []) := by
      intro e
      have := htag.1
      rw [e] at this; simp at this
    refine ⟨w ++ patch.dropLast, [patch.getLast hne], ob, ?_, Or.inr ⟨htag, _, rfl, hx⟩, hob⟩
    have e1 : numberText major minor (w ++ patch.dropLast) [patch.getLast hne] ob
        = major ++ '.' :: (minor ++ ('-' :: w ++ ((patch.dropLast ++ [patch.getLast hne])
            ++ buildText ob))) := by
      simp [numberText, sepText, hne']
    rw [e1, ← hsplit]

/-- What is in the grammar is parsed without error. -/
theorem parse_of_grammar (s : String) (h : NumberGrammar s) : ∃ v, Parse s = some (v, none) := by
  obtain ⟨major, minor, sep, patch, build, hs, h1, h2, h3, h4, h5⟩ := h
  obtain ⟨tag, c, ob, he, hc, hob⟩ := grammar_text major minor sep patch build h1 h2 h3 h4 h5
  have : s = String.mk (numberText major minor tag c ob) := by
    apply String.ext; rw [hs, he]
  rw [this, parse_numberText major minor tag c ob h1 h2 hc hob]
  exact ⟨_, rfl⟩

theorem parse_of_find_none (s : String) (h : FindStringSubmatch numberPat s = none) :
    Parse s = some (Zero, some (Error.invalidVersion s)) := by
  unfold Parse; rw [h]

theorem parse_ok_find (s : String) (v : Number) (h : Parse s = some (v, none)) :
    ∃ m, FindStringSubmatch numberPat s = some m := by
  cases hf : FindStringSubmatch numberPat s with
  | none => rw [parse_of_find_none s hf] at h; simp at h
  | some m => exact ⟨m, rfl⟩

/-! ## `ParseBinary` on canonical texts -/

theorem isSeg_test {l : List Char} (h : IsSeg l) : ∀ c ∈ l, CharClass.notHyphen.test c = true := by
  intro c hc
  simp [CharClass.test, h.2 c hc]

theorem kills_eot_flatMap {β : Type} (full : List Char) (cc : CharClass)
    (k : List Char × Caps → List β) :
    Kills cc (fun p => (Re.eot.run full p.1 p.2).flatMap k) := by
  intro c t caps _
  simp [Re.run]

theorem seriesArch_flatMap {β : Type} (full : List Char) (series arch : List Char) (caps : Caps)
    (k : List Char × Caps → List β) (hs : IsSeg series) (ha : IsSeg arch) :
    (seriesArch.run full ('-' :: (series ++ '-' :: arch)) caps).flatMap k
      = k ([], (caps.set 7 (some series)).set 8 (some arch)) := by
  unfold seriesArch
  rw [run_seq_flatMap, run_lit_flatMap]
  dsimp only
  rw [run_seq_flatMap, group_plus_flatMap full .notHyphen 7 series ('-' :: arch) caps _
    (isSeg_test hs) hs.1 (noHead_cons _ '-' arch (by decide))
    (kills_of_run_lit full .notHyphen '-' _ k (fun c hc => by simpa [CharClass.test] using hc))]
  dsimp only
  rw [run_seq_flatMap, run_lit_flatMap]
  dsimp only
  rw [run_seq_flatMap]
  have h8 := group_plus_flatMap full .notHyphen 8 arch [] ((caps.set 7 (some series)))
    (fun p => (Re.eot.run full p.1 p.2).flatMap k)
    (isSeg_test ha) ha.1 (noHead_nil _) (kills_eot_flatMap full _ k)
  rw [List.append_nil] at h8
  rw [h8]
  simp [Re.run]

theorem kills_seriesArch {β : Type} (full : List Char) (cc : CharClass)
    (k : List Char × Caps → List β) (h : ∀ c, cc.test c = true → c ≠ '-') :
    Kills cc (fun p => (seriesArch.run full p.1 p.2).flatMap k) :=
  kills_of_run_lit full cc '-' _ k h

theorem binaryPat_run (s : List Char) (caps : Caps) :
    binaryPat.run s s caps
      = (numberBody.run s s caps).flatMap (fun p => seriesArch.run s p.1 p.2) := by
  simp [binaryPat, Re.run]

theorem binaryPat_run_text (a b tag c : List Char) (ob : Option (List Char))
    (series arch : List Char) (caps : Caps)
    (ha : IsD a) (hb : IsD b) (hc : PatchOk tag c) (hob : ∀ d, ob = some d → IsD d)
    (hs : IsSeg series) (har : IsSeg arch) :
    ∃ J, binaryPat.run (binaryText a b tag c ob series arch) (binaryText a b tag c ob series arch)
        caps
      = ([], ((numberCaps caps a b tag c ob).set 7 (some series)).set 8 (some arch)) :: J := by
  have hk : ∀ cc : CharClass, (∀ c, cc.test c = true → c ≠ '-') →
      Kills cc (fun p => seriesArch.run (binaryText a b tag c ob series arch) p.1 p.2) := by
    intro cc h x t caps' hx
    have := kills_seriesArch (binaryText a b tag c ob series arch) cc (fun p => [p]) h x t caps' hx
    simpa using this
  obtain ⟨J, hJ⟩ := numberBody_build_flatMap (binaryText a b tag c ob series arch) a b tag c ob
    ('-' :: (series ++ '-' :: arch)) caps
    (fun p => seriesArch.run (binaryText a b tag c ob series arch) p.1 p.2) ha hb hc hob
    (noHead_cons _ '-' _ (by decide)) (noHead_cons _ '-' _ (by decide))
    (hk .digit (fun x hx => digit_ne_hyphen hx))
    (hk (.lit '.') (fun x hx => by
      have : x = '.' := by simpa [CharClass.test] using hx
      subst this; decide))
  refine ⟨J, ?_⟩
  rw [binaryPat_run]
  have e : binaryText a b tag c ob series arch
      = numberText a b tag c ob ++ '-' :: (series ++ '-' :: arch) := rfl
  rw [e] at hJ ⊢
  rw [hJ]
  have := seriesArch_flatMap (numberText a b tag c ob ++ '-' :: (series ++ '-' :: arch))
    series arch (numberCaps caps a b tag c ob) (fun p => [p]) hs har
  simp only [List.flatMap_singleton'] at this
  rw [this]
  rfl

/-- What `FindStringSubmatch` returns with `binaryPat` on a canonical text. -/
theorem find_binaryText (a b tag c : List Char) (ob : Option (List Char))
    (series arch : List Char)
    (ha : IsD a) (hb : IsD b) (hc : PatchOk tag c) (hob : ∀ d, ob = some d → IsD d)
    (hs : IsSeg series) (har : IsSeg arch) :
    FindStringSubmatch binaryPat (String.mk (binaryText a b tag c ob series arch))
      = some [String.mk (binaryText a b tag c ob series arch), String.mk a, String.mk b,
          String.mk (sepText tag), String.mk tag, String.mk c, String.mk (buildText ob),
          String.mk series, String.mk arch] := by
  obtain ⟨J, hJ⟩ := binaryPat_run_text a b tag c ob series arch (List.replicate 9 none)
    ha hb hc hob hs har
  have hsf : searchFrom binaryPat (binaryText a b tag c ob series arch) (List.replicate 9 none)
      (binaryText a b tag c ob series arch)
      = some (binaryText a b tag c ob series arch, [],
          ((numberCaps (List.replicate 9 none) a b tag c ob).set 7 (some series)).set 8
            (some arch)) := by
    have := searchFrom_bot_full (.seq numberBody seriesArch) (binaryText a b tag c ob series arch)
      (List.replicate 9 none)
    rw [show Re.seq .bot (.seq numberBody seriesArch) = binaryPat from rfl] at this
    rw [this, hJ]
    rfl
  unfold FindStringSubmatch
  rw [binaryPat_numSubexp]
  simp only [hsf]
  by_cases htag : tag = []
  · subst htag
    cases ob with
    | none =>
      simp [numberCaps, buildCaps, sepCaps, List.replicate, capText, buildText, sepText]
    | some d =>
      simp [numberCaps, buildCaps, sepCaps, List.replicate, capText, buildText, sepText]
  · cases ob with
    | none => simp [numberCaps, buildCaps, sepCaps, List.replicate, capText, buildText, htag, sepText]
    | some d => simp [numberCaps, buildCaps, sepCaps, List.replicate, capText, buildText, htag, sepText]

/-- The result of `ParseBinary` on a canonical text. -/
theorem parseBinary_binaryText (a b tag c : List Char) (ob : Option (List Char))
    (series arch : List Char)
    (ha : IsD a) (hb : IsD b) (hc : PatchOk tag c) (hob : ∀ d, ob = some d → IsD d)
    (hs : IsSeg series) (har : IsSeg arch) :
    ParseBinary (String.mk (binaryText a b tag c ob series arch))
      = some ({ Major := decimalValue a, Minor := decimalValue b, Tag := String.mk tag,
                Patch := decimalValue c, Build := buildValue ob,
                Series := String.mk series, Arch := String.mk arch }, none) := by
  unfold ParseBinary
  rw [find_binaryText a b tag c ob series arch ha hb hc hob hs har]
  simp only [List.getD_cons_succ, List.getD_cons_zero, atoi_digits a ha, atoi_digits b hb,
    atoi_digits c (patchOk_isD hc)]
  cases ob with
  | none =>
    simp [buildText, buildValue]
  | some d =>
    have hd := hob d rfl
    have hne : (String.mk ('.' :: d)) ≠ "" := by
      intro h
      have h' := congrArg String.data h
      exact List.cons_ne_nil _ _ h'
    simp [buildText, buildValue, sliceFrom, atoi_digits d hd, hne]

/-- The rendering `Binary.String` in terms of the parts of the canonical text. -/
theorem binary_string_eq (v : Binary) (h1 : 0 ≤ v.Major) (h2 : 0 ≤ v.Minor) (h3 : 0 ≤ v.Patch)
    (h4 : 0 ≤ v.Build) :
    v.String = String.mk (binaryText (fmtUint v.Major.toNat) (fmtUint v.Minor.toNat) v.Tag.data
      (fmtUint v.Patch.toNat) (buildOf v.Build) v.Series.data v.Arch.data) := by
  unfold Binary.String
  rw [number_string_eq v.toNumber h1 h2 h3 h4]
  apply String.ext
  simp [binaryText, hyphen_data]

/-! ## Consequences of the grammar -/

theorem count_dot_digits {l : List Char} (h : ∀ c ∈ l, isDigitChar c = true) :
    l.count '.' = 0 := by
  rw [List.count_eq_zero]
  intro hmem
  exact digit_ne_dot (h _ hmem) rfl

theorem count_dot_word {l : List Char} (h : ∀ c ∈ l, isWordChar c = true) :
    l.count '.' = 0 := by
  rw [List.count_eq_zero]
  intro hmem
  exact word_ne_dot (h _ hmem) rfl

theorem grammar_head (s : String) (h : NumberGrammar s) :
    ∃ c, s.data.head? = some c ∧ isDigitChar c = true := by
  obtain ⟨major, minor, sep, patch, build, hs, h1, -⟩ := h
  cases major with
  | nil => exact absurd h1.1 (by simp)
  | cons c t =>
    refine ⟨c, by rw [hs]; rfl, h1.2.2 c (List.mem_cons_self _ _)⟩

theorem getLast?_append_isD (pre l : List Char) (h : IsD l) :
    ∃ c, (pre ++ l).getLast? = some c ∧ isDigitChar c = true := by
  have hne : l ≠ [] := by
    intro e; subst e; exact absurd h.1 (by simp)
  refine ⟨l.getLast hne, ?_, h.2.2 _ (List.getLast_mem hne)⟩
  rw [List.getLast?_append_of_ne_nil pre hne, List.getLast?_eq_getLast l hne]

theorem grammar_last (s : String) (h : NumberGrammar s) :
    ∃ c, s.data.getLast? = some c ∧ isDigitChar c = true := by
  obtain ⟨major, minor, sep, patch, build, hs, -, -, -, h4, h5⟩ := h
  rcases h5 with rfl | ⟨d, hd, rfl⟩
  · have := getLast?_append_isD (major ++ '.' :: (minor ++ sep)) patch h4
    have e : s.data = (major ++ '.' :: (minor ++ sep)) ++ patch := by
      rw [hs]; simp
    rw [e]; exact this
  · have := getLast?_append_isD (major ++ '.' :: (minor ++ (sep ++ (patch ++ ['.'])))) d hd
    have e : s.data = (major ++ '.' :: (minor ++ (sep ++ (patch ++ ['.'])))) ++ d := by
      rw [hs]; simp
    rw [e]; exact this

theorem grammar_dots (s : String) (h : NumberGrammar s) : s.data.count '.' ≤ 3 := by
  obtain ⟨major, minor, sep, patch, build, hs, h1, h2, h3, h4, h5⟩ := h
  have c1 := count_dot_digits h1.2.2
  have c2 := count_dot_digits h2.2.2
  have c4 := count_dot_digits h4.2.2
  have c3 : sep.count '.' ≤ 1 := by
    rcases h3 with rfl | ⟨w, hw, rfl⟩
    · simp
    · have := count_dot_word hw.2
      rw [List.count_cons, this]; simp
  have c5 : build.count '.' ≤ 1 := by
    rcases h5 with rfl | ⟨d, hd, rfl⟩
    · simp
    · have := count_dot_digits hd.2.2
      rw [List.count_cons, this]; simp
  rw [hs]
  simp only [List.count_append, List.count_cons, c1, c2, c4]
  simp
  omega

/-- What is not in the grammar is rejected. -/
theorem parse_error_of_not_grammar (s : String) (h : ¬ NumberGrammar s) :
    Parse s = some (Zero, some (Error.invalidVersion s)) := by
  cases hf : FindStringSubmatch numberPat s with
  | none => exact parse_of_find_none s hf
  | some m => exact absurd (find_numberPat_sound s m hf) h

theorem fmtUint_shortest (u : Nat) : IsShortestDecimal (u : Int) (String.mk (fmtUint u)) := by
  refine ⟨?_, fmtUint_digits u, by simp [decimalValue_fmtUint], ?_⟩
  · have := fmtUint_length_pos u
    intro e
    rw [show (String.mk (fmtUint u)).data = fmtUint u from rfl] at e
    rw [e] at this; simp at this
  · intro h2
    show (fmtUint u).head? ≠ some '0'
    have hl : 2 ≤ (fmtUint u).length := h2
    have hu : 1 ≤ u := by
      by_contra hlt
      have h0 : u = 0 := by omega
      subst h0
      rw [fmtUint_small 0 (by norm_num)] at hl
      simp at hl
    exact fmtUint_head u hu

/-! ## The shape of every successful parse -/

/-- What `FindStringSubmatch` returns with `numberPat`, whenever it returns something. -/
theorem find_numberPat_shape (s : String) (m : List String)
    (h : FindStringSubmatch numberPat s = some m) :
    ∃ a b tag c ob, IsD a ∧ IsD b ∧ PatchOk tag c ∧ (∀ d, ob = some d → IsD d) ∧
      s = String.mk (numberText a b tag c ob) ∧
      m = [s, String.mk a, String.mk b, String.mk (sepText tag), String.mk tag, String.mk c,
            String.mk (buildText ob)] := by
  obtain ⟨major, minor, sep, patch, build, hs, h1, h2, h3, h4, h5⟩ := find_numberPat_sound s m h
  obtain ⟨tag, c, ob, he, hc, hob⟩ := grammar_text major minor sep patch build h1 h2 h3 h4 h5
  have hs' : s = String.mk (numberText major minor tag c ob) := by
    apply String.ext; rw [hs, he]
  refine ⟨major, minor, tag, c, ob, h1, h2, hc, hob, hs', ?_⟩
  have hf := find_numberText major minor tag c ob h1 h2 hc hob
  rw [← hs', h] at hf
  exact Option.some.inj hf

/-- Every Number that `Parse` returns without error, with the text it came from. -/
theorem parse_ok_shape (s : String) (v : Number) (h : Parse s = some (v, none)) :
    ∃ a b tag c ob, IsD a ∧ IsD b ∧ PatchOk tag c ∧ (∀ d, ob = some d → IsD d) ∧
      s = String.mk (numberText a b tag c ob) ∧
      v = { Major := decimalValue a, Minor := decimalValue b, Tag := String.mk tag,
            Patch := decimalValue c, Build := buildValue ob } := by
  obtain ⟨m, hm⟩ := parse_ok_find s v h
  obtain ⟨a, b, tag, c, ob, ha, hb, hc, hob, hs, -⟩ := find_numberPat_shape s m hm
  refine ⟨a, b, tag, c, ob, ha, hb, hc, hob, hs, ?_⟩
  have hp := parse_numberText a b tag c ob ha hb hc hob
  rw [← hs, h] at hp
  have := Option.some.inj hp
  exact (Prod.mk.inj this).1

theorem matches_seriesArch (full s t : List Char) (h : seriesArch.Matches full s t) :
    ∃ series arch, s = '-' :: (series ++ '-' :: arch) ∧ IsSeg series ∧ IsSeg arch ∧ t = [] := by
  simp only [seriesArch, Re.Matches, CharClass.test, decide_eq_true_eq, Bool.not_eq_true',
    decide_eq_false_iff_not] at h
  obtain ⟨m1, ⟨c1, rfl, rfl⟩, m2, ⟨series, rfl, hs1, hs2⟩, m3, ⟨c2, rfl, rfl⟩, m4,
    ⟨arch, rfl, ha1, ha2⟩, rfl, rfl⟩ := h
  exact ⟨series, arch, by simp, ⟨hs1, hs2⟩, ⟨ha1, ha2⟩, rfl⟩

/-- The grammar of `binaryPat`: the number grammar followed by `-series-arch`. -/
theorem matches_binaryPat (s t : List Char) (h : binaryPat.Matches s s t) :
    ∃ major minor sep patch build series arch : List Char,
      s = major ++ '.' :: (minor ++ (sep ++ (patch ++ build))) ++ '-' :: (series ++ '-' :: arch) ∧
      IsD major ∧ IsD minor ∧ (sep = ['.'] ∨ ∃ w, IsW w ∧ sep = '-' :: w) ∧ IsD patch ∧
      (build = [] ∨ ∃ d, IsD d ∧ build = '.' :: d) ∧ IsSeg series ∧ IsSeg arch := by
  change ∃ m, (m = s ∧ s.length = s.length) ∧
    ∃ m2, numberBody.Matches s m m2 ∧ seriesArch.Matches s m2 t at h
  obtain ⟨m, ⟨rfl, -⟩, m2, hbody, htail⟩ := h
  obtain ⟨series, arch, rfl, hse, har, -⟩ := matches_seriesArch _ _ _ htail
  obtain ⟨major, minor, sep, patch, build, hs, h1, h2, h3, h4, h5⟩ := matches_numberBody _ _ _ hbody
  exact ⟨major, minor, sep, patch, build, series, arch, by rw [hs]; simp, h1, h2, h3, h4, h5,
    hse, har⟩

/-- What `FindStringSubmatch` returns with `binaryPat`, whenever it returns something. -/
theorem find_binaryPat_shape (s : String) (m : List String)
    (h : FindStringSubmatch binaryPat s = some m) :
    ∃ a b tag c ob series arch, IsD a ∧ IsD b ∧ PatchOk tag c ∧ (∀ d, ob = some d → IsD d) ∧
      IsSeg series ∧ IsSeg arch ∧
      s = String.mk (binaryText a b tag c ob series arch) ∧
      m = [s, String.mk a, String.mk b, String.mk (sepText tag), String.mk tag, String.mk c,
            String.mk (buildText ob), String.mk series, String.mk arch] := by
  have hg : ∃ t, binaryPat.Matches s.data s.data t := by
    unfold FindStringSubmatch at h
    have hb := searchFrom_bot_full (.seq numberBody seriesArch) s.data
      (List.replicate (binaryPat.numSubexp + 1) none)
    rw [show Re.seq .bot (.seq numberBody seriesArch) = binaryPat from rfl] at hb
    rw [hb] at h
    cases hr : Re.run s.data binaryPat s.data (List.replicate (binaryPat.numSubexp + 1) none) with
    | nil => rw [hr] at h; simp at h
    | cons p l =>
      have hp : p ∈ Re.run s.data binaryPat s.data
          (List.replicate (binaryPat.numSubexp + 1) none) := by
        rw [hr]; exact List.mem_cons_self _ _
      exact ⟨p.1, run_sound _ _ _ _ _ hp⟩
  obtain ⟨t, ht⟩ := hg
  obtain ⟨major, minor, sep, patch, build, series, arch, hs, h1, h2, h3, h4, h5, hse, har⟩ :=
    matches_binaryPat s.data t ht
  obtain ⟨tag, c, ob, he, hc, hob⟩ := grammar_text major minor sep patch build h1 h2 h3 h4 h5
  have hs' : s = String.mk (binaryText major minor tag c ob series arch) := by
    apply String.ext
    rw [hs, he]
    rfl
  refine ⟨major, minor, tag, c, ob, series, arch, h1, h2, hc, hob, hse, har, hs', ?_⟩
  have hf := find_binaryText major minor tag c ob series arch h1 h2 hc hob hse har
  rw [← hs', h] at hf
  exact Option.some.inj hf

theorem parseBinary_of_find_none (s : String) (h : FindStringSubmatch binaryPat s = none) :
    ParseBinary s = some (Binary.zero, some (Error.invalidBinaryVersion s)) := by
  unfold ParseBinary; rw [h]

theorem parseBinary_ok_find (s : String) (b : Binary) (h : ParseBinary s = some (b, none)) :
    ∃ m, FindStringSubmatch binaryPat s = some m := by
  cases hf : FindStringSubmatch binaryPat s with
  | none => rw [parseBinary_of_find_none s hf] at h; simp at h
  | some m => exact ⟨m, rfl⟩

/-- Every Binary that `ParseBinary` returns without error, with the text it came from. -/
theorem parseBinary_ok_shape (s : String) (v : Binary) (h : ParseBinary s = some (v, none)) :
    ∃ a b tag c ob series arch, IsD a ∧ IsD b ∧ PatchOk tag c ∧ (∀ d, ob = some d → IsD d) ∧
      IsSeg series ∧ IsSeg arch ∧
      s = String.mk (binaryText a b tag c ob series arch) ∧
      v = { Major := decimalValue a, Minor := decimalValue b, Tag := String.mk tag,
            Patch := decimalValue c, Build := buildValue ob,
            Series := String.mk series, Arch := String.mk arch } := by
  obtain ⟨m, hm⟩ := parseBinary_ok_find s v h
  obtain ⟨a, b, tag, c, ob, series, arch, ha, hb, hc, hob, hse, har, hs, -⟩ :=
    find_binaryPat_shape s m hm
  refine ⟨a, b, tag, c, ob, series, arch, ha, hb, hc, hob, hse, har, hs, ?_⟩
  have hp := parseBinary_binaryText a b tag c ob series arch ha hb hc hob hse har
  rw [← hs, h] at hp
  have := Option.some.inj hp
  exact (Prod.mk.inj this).1

/-! ## `ParseMajorMinor` -/

theorem splitDot_ne_nil (l : List Char) : splitDot l ≠ [] := by
  cases l with
  | nil => simp [splitDot]
  | cons c t =>
    unfold splitDot
    by_cases hc : c = '.'
    · simp [hc]
    · simp only [hc, if_false]
      split <;> simp

theorem splitDot_length (l : List Char) : (splitDot l).length = l.count '.' + 1 := by
  induction l with
  | nil => simp [splitDot]
  | cons c t ih =>
    unfold splitDot
    by_cases hc : c = '.'
    · subst hc
      simp [ih]
    · have hc' : ¬ ('.' = c) := fun h => hc h.symm
      simp only [hc, if_false]
      have : List.count '.' (c :: t) = List.count '.' t := by
        rw [List.count_cons]; simp [hc]
      rw [this, ← ih]
      split
      · rename_i h; exact absurd h (splitDot_ne_nil t)
      · rename_i h r hh; rw [hh]; simp

theorem splitDot_cons_dot (t : List Char) : splitDot ('.' :: t) = [] :: splitDot t := by
  simp [splitDot]

theorem splitDot_cons_ne (c : Char) (t : List Char) (hc : c ≠ '.') :
    ∃ h r, splitDot t = h :: r ∧ splitDot (c :: t) = (c :: h) :: r := by
  cases hst : splitDot t with
  | nil => exact absurd hst (splitDot_ne_nil t)
  | cons h r =>
    refine ⟨h, r, rfl, ?_⟩
    have hc' : ¬ c = '.' := hc
    rw [splitDot]
    simp only [hc', if_false, hst]

theorem splitDot_no_dot (l : List Char) (h : ∀ c ∈ l, c ≠ '.') : splitDot l = [l] := by
  induction l with
  | nil => simp [splitDot]
  | cons c t ih =>
    obtain ⟨x, r, hx, hcons⟩ := splitDot_cons_ne c t (h c (List.mem_cons_self _ _))
    rw [ih (fun d hd => h d (List.mem_cons_of_mem _ hd))] at hx
    injection hx with h1 h2
    rw [hcons, ← h1, ← h2]

theorem splitDot_append_dot (a b : List Char) (h : ∀ c ∈ a, c ≠ '.') :
    splitDot (a ++ '.' :: b) = a :: splitDot b := by
  induction a with
  | nil => simp [splitDot_cons_dot]
  | cons c t ih =>
    obtain ⟨x, r, hx, hcons⟩ := splitDot_cons_ne c (t ++ '.' :: b) (h c (List.mem_cons_self _ _))
    rw [ih (fun d hd => h d (List.mem_cons_of_mem _ hd))] at hx
    injection hx with h1 h2
    rw [List.cons_append, hcons, ← h1, ← h2]

/-- What `strconv.Atoi` accepts is an optionally signed literal. -/
theorem parseUint_ok_digits : ∀ (l : List Char) (acc n : Nat), parseUint l acc = (n, none) →
    ∀ c ∈ l, isDigitChar c = true := by
  intro l
  induction l with
  | nil => intro acc n _ c hc; cases hc
  | cons d t ih =>
    intro acc n h c hc
    by_cases hd : isDigitChar d = true
    · rw [parseUint, digitVal_of_digit hd] at h
      simp only at h
      by_cases hov : 2 ^ 64 ≤ acc * 10 + (d.toNat - 48)
      · rw [if_pos hov] at h
        simp at h
      · rw [if_neg hov] at h
        rcases List.mem_cons.1 hc with rfl | hc
        · exact hd
        · exact ih _ _ h c hc
    · have : digitVal d = none := by simp [digitVal, hd]
      rw [parseUint, this] at h
      simp at h

theorem parseUint_error_kind : ∀ (l : List Char) (acc n : Nat) (e : Error),
    parseUint l acc = (n, some e) →
      (e = Error.atoiSyntax ∧ n = 0) ∨ (e = Error.atoiRange ∧ n = 2 ^ 64 - 1) := by
  intro l
  induction l with
  | nil => intro acc n e h; simp [parseUint] at h
  | cons d t ih =>
    intro acc n e h
    rw [parseUint] at h
    cases hd : digitVal d with
    | none =>
      rw [hd] at h
      simp only at h
      injection h with h1 h2
      injection h2 with h2
      exact Or.inl ⟨h2.symm, h1.symm⟩
    | some v =>
      rw [hd] at h
      simp only at h
      by_cases hov : 2 ^ 64 ≤ acc * 10 + v
      · rw [if_pos hov] at h
        injection h with h1 h2
        injection h2 with h2
        exact Or.inr ⟨h2.symm, h1.symm⟩
      · rw [if_neg hov] at h
        exact ih _ _ _ h

/-- The part of `strconv.Atoi` after the sign has been split off. -/
theorem strconvAtoi_eq (s : String) :
    strconvAtoi s =
      (let sd : Bool × List Char :=
        match s.data with
        | c :: t => if c = '-' then (true, t) else if c = '+' then (false, t) else (false, c :: t)
        | [] => (false, [])
      if sd.2 = [] then (0, some Error.atoiSyntax)
      else
        match parseUint sd.2 0 with
        | (_, some Error.atoiSyntax) => (0, some Error.atoiSyntax)
        | (un, _) =>
          if sd.1 then
            (if un ≤ 2 ^ 63 then (-(un : Int), none) else (-(2 ^ 63 : Int), some Error.atoiRange))
          else
            (if un < 2 ^ 63 then ((un : Int), none)
             else ((2 ^ 63 - 1 : Int), some Error.atoiRange))) := rfl

theorem atoi_core_ok (neg : Bool) (ds : List Char) (n : Int)
    (h : (if ds = [] then ((0 : Int), some Error.atoiSyntax)
      else
        match parseUint ds 0 with
        | (_, some Error.atoiSyntax) => (0, some Error.atoiSyntax)
        | (un, _) =>
          if neg then
            (if un ≤ 2 ^ 63 then (-(un : Int), none) else (-(2 ^ 63 : Int), some Error.atoiRange))
          else
            (if un < 2 ^ 63 then ((un : Int), none)
             else ((2 ^ 63 - 1 : Int), some Error.atoiRange))) = (n, none)) :
    IsLit ds := by
  by_cases hds : ds = []
  · rw [if_pos hds] at h; simp at h
  · rw [if_neg hds] at h
    refine ⟨hds, ?_⟩
    cases hp : parseUint ds 0 with
    | mk un oe =>
      cases oe with
      | none => exact parseUint_ok_digits ds 0 un hp
      | some e =>
        rw [hp] at h
        rcases parseUint_error_kind ds 0 un e hp with ⟨he, -⟩ | ⟨he, hun⟩
        · subst he; simp at h
        · subst he; subst hun
          cases neg <;> simp at h

theorem strconvAtoi_ok_signed (s : String) (n : Int) (h : strconvAtoi s = (n, none)) :
    IsSignedLit s.data := by
  rw [strconvAtoi_eq] at h
  cases hs : s.data with
  | nil => rw [hs] at h; simp at h
  | cons c t =>
    rw [hs] at h
    by_cases h1 : c = '-'
    · subst h1
      simp only [if_true] at h
      exact ⟨['-'], t, rfl, Or.inr (Or.inl rfl), atoi_core_ok true t n h⟩
    · by_cases h2 : c = '+'
      · subst h2
        simp only [h1, if_false, if_true] at h
        exact ⟨['+'], t, rfl, Or.inr (Or.inr rfl), atoi_core_ok false t n h⟩
      · simp only [h1, h2, if_false] at h
        exact ⟨[], c :: t, rfl, Or.inl rfl, atoi_core_ok false (c :: t) n h⟩

/-- What is not an optionally signed literal makes `strconv.Atoi` fail. -/
theorem strconvAtoi_error_of_not_signed (s : String) (h : ¬ IsSignedLit s.data) :
    ∃ n e, strconvAtoi s = (n, some e) := by
  cases hr : strconvAtoi s with
  | mk n oe =>
    cases oe with
    | none => exact absurd (strconvAtoi_ok_signed s n hr) h
    | some e => exact ⟨n, e, rfl⟩

/-- The result of `ParseMajorMinor` in terms of the pieces of the split. -/
theorem parseMajorMinor_eq (s : String) (h : List Char) (r : List (List Char))
    (hs : splitDot s.data = h :: r) :
    ParseMajorMinor s =
      match (strconvAtoi (String.mk h)).2 with
      | some err => (-1, -1, some (Error.invalidMajor (String.mk h) err))
      | none =>
        match r with
        | [] => ((strconvAtoi (String.mk h)).1, -1, none)
        | [m] =>
          (match (strconvAtoi (String.mk m)).2 with
            | some err => (-1, -1, some (Error.invalidMinor (String.mk m) err))
            | none => ((strconvAtoi (String.mk h)).1, (strconvAtoi (String.mk m)).1, none))
        | _ :: _ :: _ => (-1, -1, some (Error.invalidMajorMinor s)) := by
  unfold ParseMajorMinor
  simp only [hs, List.map_cons, List.getD_cons_zero, List.length_cons]
  cases hmaj : (strconvAtoi (String.mk h)).2 with
  | some err => rfl
  | none =>
    cases r with
    | nil => simp
    | cons m r2 =>
      cases r2 with
      | nil =>
        simp
        all_goals
          generalize strconvAtoi (String.mk m) = q
          obtain ⟨n, oe⟩ := q
          cases oe <;> rfl
      | cons m2 r3 => simp

/-- Whatever error `ParseMajorMinor` returns, both integers are -1. -/
theorem parseMajorMinor_error (s : String) (major minor : Int) (e : Error)
    (h : ParseMajorMinor s = (major, minor, some e)) : major = -1 ∧ minor = -1 := by
  cases hs : splitDot s.data with
  | nil => exact absurd hs (splitDot_ne_nil _)
  | cons x r =>
    rw [parseMajorMinor_eq s x r hs] at h
    cases hmaj : (strconvAtoi (String.mk x)).2 with
    | some err =>
      rw [hmaj] at h
      simp only [Prod.mk.injEq] at h
      exact ⟨h.1.symm, h.2.1.symm⟩
    | none =>
      rw [hmaj] at h
      cases r with
      | nil => simp at h
      | cons m r2 =>
        cases r2 with
        | nil =>
          simp only at h
          cases hmin : (strconvAtoi (String.mk m)).2 with
          | some err =>
            rw [hmin] at h
            simp only [Prod.mk.injEq] at h
            exact ⟨h.1.symm, h.2.1.symm⟩
          | none => rw [hmin] at h; simp at h
        | cons m2 r3 =>
          simp only [Prod.mk.injEq] at h
          exact ⟨h.1.symm, h.2.1.symm⟩

/-- Three or more pieces: always an error. -/
theorem parseMajorMinor_many (s : String) (h : 2 < (splitDot s.data).length) :
    ∃ e, ParseMajorMinor s = (-1, -1, some e) := by
  cases hs : splitDot s.data with
  | nil => exact absurd hs (splitDot_ne_nil _)
  | cons x r =>
    rw [hs] at h
    rw [parseMajorMinor_eq s x r hs]
    cases hmaj : (strconvAtoi (String.mk x)).2 with
    | some err => exact ⟨_, rfl⟩
    | none =>
      cases r with
      | nil => simp at h
      | cons m r2 =>
        cases r2 with
        | nil => simp at h
        | cons m2 r3 => exact ⟨_, rfl⟩

/-- A piece that is not an optionally signed literal: an error. -/
theorem parseMajorMinor_bad_piece (s : String) (seg : List Char)
    (hmem : seg ∈ splitDot s.data) (hbad : ¬ IsSignedLit seg) :
    ∃ e, ParseMajorMinor s = (-1, -1, some e) := by
  by_cases hlen : 2 < (splitDot s.data).length
  · exact parseMajorMinor_many s hlen
  · cases hs : splitDot s.data with
    | nil => exact absurd hs (splitDot_ne_nil _)
    | cons x r =>
      rw [hs] at hmem hlen
      rw [parseMajorMinor_eq s x r hs]
      cases hmaj : (strconvAtoi (String.mk x)).2 with
      | some err => exact ⟨_, rfl⟩
      | none =>
        have hx : IsSignedLit x :=
          strconvAtoi_ok_signed (String.mk x) (strconvAtoi (String.mk x)).1
            (by rw [← hmaj])
        cases r with
        | nil =>
          simp at hmem
          subst hmem
          exact absurd hx hbad
        | cons m r2 =>
          cases r2 with
          | nil =>
            simp only
            cases hmin : (strconvAtoi (String.mk m)).2 with
            | some err => exact ⟨_, rfl⟩
            | none =>
              have hm : IsSignedLit m :=
                strconvAtoi_ok_signed (String.mk m) (strconvAtoi (String.mk m)).1
                  (by rw [← hmin])
              simp at hmem
              rcases hmem with rfl | rfl
              · exact absurd hx hbad
              · exact absurd hm hbad
          | cons m2 r3 => simp at hlen

theorem isLit_no_dot {l : List Char} (h : IsLit l) : ∀ c ∈ l, c ≠ '.' :=
  fun c hc => digit_ne_dot (h.2 c hc)

theorem parseMajorMinor_one (s : String) (h : IsLit s.data) (hr : decimalValue s.data < 2 ^ 63) :
    ParseMajorMinor s = ((decimalValue s.data : Int), -1, none) := by
  have hs := splitDot_no_dot s.data (isLit_no_dot h)
  rw [parseMajorMinor_eq s s.data [] hs]
  have := strconvAtoi_digits s.data h.1 h.2 hr
  rw [this]

theorem parseMajorMinor_two (a b : String) (ha : IsLit a.data) (hb : IsLit b.data)
    (hra : decimalValue a.data < 2 ^ 63) (hrb : decimalValue b.data < 2 ^ 63) :
    ParseMajorMinor (a ++ "." ++ b) = ((decimalValue a.data : Int), (decimalValue b.data : Int), none) := by
  have hs : splitDot (a ++ "." ++ b).data = a.data :: [b.data] := by
    have e : (a ++ "." ++ b).data = a.data ++ '.' :: b.data := by
      simp [dot_data]
    rw [e, splitDot_append_dot a.data b.data (isLit_no_dot ha),
      splitDot_no_dot b.data (isLit_no_dot hb)]
  rw [parseMajorMinor_eq _ a.data [b.data] hs]
  have h1 := strconvAtoi_digits a.data ha.1 ha.2 hra
  have h2 := strconvAtoi_digits b.data hb.1 hb.2 hrb
  simp only [h1, h2]

/-! ## Segments, word runs and numerals without leading zero -/

theorem takeWhile_append_stop (p : Char → Bool) (l1 l2 : List Char)
    (h1 : ∀ c ∈ l1, p c = true) (h2 : ∀ c t, l2 = c :: t → p c = false) :
    (l1 ++ l2).takeWhile p = l1 := by
  induction l1 with
  | nil =>
    cases l2 with
    | nil => rfl
    | cons c t => simp [List.takeWhile, h2 c t rfl]
  | cons c t ih =>
    have hc := h1 c (List.mem_cons_self _ _)
    rw [List.cons_append, List.takeWhile_cons, hc, if_pos rfl,
      ih (fun d hd => h1 d (List.mem_cons_of_mem _ hd))]

theorem dropWhile_append_stop (p : Char → Bool) (l1 l2 : List Char)
    (h1 : ∀ c ∈ l1, p c = true) (h2 : ∀ c t, l2 = c :: t → p c = false) :
    (l1 ++ l2).dropWhile p = l2 := by
  induction l1 with
  | nil =>
    cases l2 with
    | nil => rfl
    | cons c t => simp [List.dropWhile, h2 c t rfl]
  | cons c t ih =>
    have hc := h1 c (List.mem_cons_self _ _)
    rw [List.cons_append, List.dropWhile_cons, hc, if_pos rfl,
      ih (fun d hd => h1 d (List.mem_cons_of_mem _ hd))]

theorem afterLastHyphen_append (x seg : List Char) (h : ∀ c ∈ seg, c ≠ '-') :
    afterLastHyphen (x ++ '-' :: seg) = seg := by
  unfold afterLastHyphen
  have e : (x ++ '-' :: seg).reverse = seg.reverse ++ '-' :: x.reverse := by simp
  rw [e, takeWhile_append_stop _ seg.reverse ('-' :: x.reverse)
    (fun c hc => by simpa using h c (List.mem_reverse.1 hc))
    (fun c t hc => by injection hc with h1 h2; subst h1; simp)]
  simp

theorem beforeLastHyphen_append (x seg : List Char) (h : ∀ c ∈ seg, c ≠ '-') :
    beforeLastHyphen (x ++ '-' :: seg) = x := by
  unfold beforeLastHyphen
  have e : (x ++ '-' :: seg).reverse = seg.reverse ++ '-' :: x.reverse := by simp
  rw [e, dropWhile_append_stop _ seg.reverse ('-' :: x.reverse)
    (fun c hc => by simpa using h c (List.mem_reverse.1 hc))
    (fun c t hc => by injection hc with h1 h2; subst h1; simp)]
  simp

theorem wordRunAfterHyphen_eq (pre run rest : List Char) (hpre : ∀ c ∈ pre, c ≠ '-')
    (hrun : ∀ c ∈ run, isWordChar c = true) (hrest : NoHead .word rest) :
    wordRunAfterHyphen (pre ++ '-' :: (run ++ rest)) = run := by
  unfold wordRunAfterHyphen
  rw [dropWhile_append_stop _ pre ('-' :: (run ++ rest))
    (fun c hc => by simpa using hpre c hc)
    (fun c t hc => by injection hc with h1 h2; subst h1; simp)]
  simp only [List.drop_succ_cons, List.drop_zero]
  exact takeWhile_append_stop isWordChar run rest hrun (fun c t hc => hrest c t hc)

/-! ### Numerals without leading zero -/

theorem digitChar_of_digit (x : Char) (h : isDigitChar x = true) :
    Nat.digitChar (x.toNat - 48) = x := by
  have hr := (isDigitChar_iff x).1 h
  have hx : x = Char.ofNat x.toNat := (Char.ofNat_toNat x).symm
  generalize x.toNat = n at hr hx
  subst hx
  obtain ⟨h1, h2⟩ := hr
  interval_cases n <;> decide

theorem decimalValue_pos_of_head (l : List Char) (h : ∀ c ∈ l, isDigitChar c = true)
    (hne : l ≠ []) (hh : l.head? ≠ some '0') : 1 ≤ decimalValue l := by
  cases l with
  | nil => exact absurd rfl hne
  | cons c t =>
    have hc := h c (List.mem_cons_self _ _)
    have hr := (isDigitChar_iff c).1 hc
    have hc0 : c ≠ '0' := by
      intro e; apply hh; simp [e]
    have h49 : 49 ≤ c.toNat := by
      by_contra hlt
      have h48 : c.toNat = 48 := by omega
      apply hc0
      have := digitChar_of_digit c hc
      rw [h48] at this
      exact this.symm
    simp only [decimalValue]
    have hp : 1 ≤ 10 ^ t.length := Nat.one_le_pow _ _ (by norm_num)
    have : 1 ≤ (c.toNat - 48) * 10 ^ t.length := Nat.mul_pos (by omega) hp
    omega

/-- A digit string without superfluous leading zero is what `fmtUint` prints for its value. -/
theorem fmtUint_decimalValue (l : List Char) (h : ∀ c ∈ l, isDigitChar c = true) (hne : l ≠ [])
    (hz : NoLeadingZero l) : fmtUint (decimalValue l) = l := by
  induction l using List.reverseRecOn with
  | nil => exact absurd rfl hne
  | append_singleton init x ih =>
    have hx : isDigitChar x = true := h x (by simp)
    have hxr := (isDigitChar_iff x).1 hx
    have hinit : ∀ c ∈ init, isDigitChar c = true := fun c hc => h c (by simp [hc])
    rw [decimalValue_append_single, fmtUint_eq]
    by_cases hi : init = []
    · subst hi
      have hlt : ¬ 10 ≤ decimalValue [] * 10 + (x.toNat - 48) := by
        simp [decimalValue]; omega
      rw [if_neg hlt]
      simp [decimalValue, digitChar_of_digit x hx]
    · have hhead : init.head? ≠ some '0' := by
        rcases hz with hz | hz
        · exfalso
          simp at hz
          exact hi hz
        · cases init with
          | nil => exact absurd rfl hi
          | cons c t => simpa using hz
      have hpos := decimalValue_pos_of_head init hinit hi hhead
      have hge : 10 ≤ decimalValue init * 10 + (x.toNat - 48) := by omega
      rw [if_pos hge]
      have hdiv : (decimalValue init * 10 + (x.toNat - 48)) / 10 = decimalValue init := by omega
      have hmod : (decimalValue init * 10 + (x.toNat - 48)) % 10 = x.toNat - 48 := by omega
      rw [hdiv, hmod, ih hinit hi (Or.inr hhead), digitChar_of_digit x hx]

/-! ## Canonical texts -/

/-- From the parts of the grammar to the parts of a canonical text, keeping track of
the patch group when the separator is a plain dot. -/
theorem grammar_text_rel (major minor sep patch build : List Char)
    (h1 : IsD major) (h2 : IsD minor) (h3 : sep = ['.'] ∨ ∃ w, IsW w ∧ sep = '-' :: w)
    (h4 : IsD patch) (h5 : build = [] ∨ ∃ d, IsD d ∧ build = '.' :: d) :
    ∃ tag c ob, major ++ '.' :: (minor ++ (sep ++ (patch ++ build))) = numberText major minor tag c ob
      ∧ PatchOk tag c ∧ (∀ d, ob = some d → IsD d) ∧ build = buildText ob
      ∧ (tag = [] → sep = ['.'] ∧ c = patch) := by
  have hob : ∃ ob, build = buildText ob ∧ (∀ d, ob = some d → IsD d) := by
    rcases h5 with rfl | ⟨d, hd, rfl⟩
    · exact ⟨none, rfl, by intro d h; cases h⟩
    · exact ⟨some d, rfl, by intro d2 h; injection h with h; subst h; exact hd⟩
  obtain ⟨ob, hb, hob⟩ := hob
  rcases h3 with rfl | ⟨w, hw, rfl⟩
  · exact ⟨[], patch, ob, by simp [numberText, sepText, hb], Or.inl ⟨rfl, h4⟩, hob, hb,
      fun _ => ⟨rfl, rfl⟩⟩
  · have hne : patch ≠ [] := by
      intro e; subst e; exact absurd h4.1 (by simp)
    have hsplit : patch = patch.dropLast ++ [patch.getLast hne] :=
      (List.dropLast_append_getLast hne).symm
    have hx : isDigitChar (patch.getLast hne) = true := h4.2.2 _ (List.getLast_mem hne)
    have htag : IsW (w ++ patch.dropLast) := by
      refine ⟨by have := hw.1; simp; omega, ?_⟩
      intro c hc
      rcases List.mem_append.1 hc with hc | hc
      · exact hw.2 c hc
      · exact digit_is_word (h4.2.2 c (List.mem_of_mem_dropLast hc))
    have hne2 : ¬ (w ++ patch.dropLast = []) := by
      intro e
      have := htag.1
      rw [e] at this; simp at this
    refine ⟨w ++ patch.dropLast, [patch.getLast hne], ob, ?_, Or.inr ⟨htag, _, rfl, hx⟩, hob, hb,
      fun e => absurd e hne2⟩
    have e1 : numberText major minor (w ++ patch.dropLast) [patch.getLast hne] ob
        = major ++ '.' :: (minor ++ ('-' :: w ++ ((patch.dropLast ++ [patch.getLast hne])
            ++ buildText ob))) := by
      simp [numberText, sepText, hne2]
    rw [e1, ← hsplit, hb]

theorem buildOf_buildValue (ob : Option (List Char)) (hob : ∀ d, ob = some d → IsD d)
    (hz : ∀ d, ob = some d → d.head? ≠ some '0') : buildOf (buildValue ob) = ob := by
  cases ob with
  | none => simp [buildValue, buildOf]
  | some d =>
    have hd := hob d rfl
    have hne : d ≠ [] := by
      intro e; subst e; exact absurd hd.1 (by simp)
    have hpos := decimalValue_pos_of_head d hd.2.2 hne (hz d rfl)
    have hgt : ((decimalValue d : Int)) > 0 := by omega
    simp only [buildValue, buildOf, hgt, if_true, Int.toNat_ofNat]
    rw [fmtUint_decimalValue d hd.2.2 hne (Or.inr (hz d rfl))]

/-- Rendering the parsed value of a canonically written text gives the text back. -/
theorem string_of_canonical_parts (a b tag c : List Char) (ob : Option (List Char))
    (series arch : List Char) (ha : IsD a) (hb : IsD b) (hc : IsD c)
    (hob : ∀ d, ob = some d → IsD d)
    (za : NoLeadingZero a) (zb : NoLeadingZero b) (zc : NoLeadingZero c)
    (zo : ∀ d, ob = some d → d.head? ≠ some '0') :
    Binary.String { Major := decimalValue a, Minor := decimalValue b, Tag := String.mk tag,
                    Patch := decimalValue c, Build := buildValue ob,
                    Series := String.mk series, Arch := String.mk arch }
      = String.mk (binaryText a b tag c ob series arch) := by
  have nn : ∀ l : List Char, l ≠ [] ↔ 1 ≤ l.length := by
    intro l; cases l <;> simp
  have hbv : (0 : Int) ≤ buildValue ob := by
    cases ob <;> simp [buildValue]
  rw [binary_string_eq _ (by simp) (by simp) (by simp) hbv]
  simp only [Int.toNat_ofNat, buildOf_buildValue ob hob zo,
    fmtUint_decimalValue a ha.2.2 ((nn a).2 ha.1) za,
    fmtUint_decimalValue b hb.2.2 ((nn b).2 hb.1) zb,
    fmtUint_decimalValue c hc.2.2 ((nn c).2 hc.1) zc]

theorem fmtUint_noLeadingZero (u : Nat) : NoLeadingZero (fmtUint u) := by
  by_cases hu : u < 10
  · left; rw [fmtUint_small u hu]; rfl
  · right; exact fmtUint_head u (by omega)

/-- For an accepted text, rendering the result gives the text back exactly when the
text is written canonically. -/
theorem string_eq_iff_canonical (s : String) (v : Binary) (h : ParseBinary s = some (v, none)) :
    v.String = s ↔ CanonicalBinaryText s := by
  constructor
  · intro hstr
    obtain ⟨a, b, tag, c, ob, series, arch, ha, hb, hc, hob, hse, har, hs, hv⟩ :=
      parseBinary_ok_shape s v h
    have hcD := patchOk_isD hc
    have hbv0 : (0 : Int) ≤ buildValue ob := by
      cases ob <;> simp [buildValue]
    have hbv9 : buildValue ob ≤ 999999999 := by
      cases ob with
      | none => simp [buildValue]
      | some d =>
        have := decimalValue_lt_of_isD (hob d rfl)
        simp only [buildValue]
        omega
    have hrender := binary_string_eq v (by rw [hv]; simp) (by rw [hv]; simp) (by rw [hv]; simp)
      (by rw [hv]; exact hbv0)
    rw [hstr] at hrender
    have hsep : sepText v.Tag.data = ['.'] ∨ ∃ w, IsW w ∧ sepText v.Tag.data = '-' :: w := by
      rw [hv]
      rcases hc with ⟨ht, -⟩ | ⟨hw, -⟩
      · left; simp [sepText, ht]
      · right
        have hne : tag ≠ [] := by
          intro e; subst e; exact absurd hw.1 (by simp)
        exact ⟨tag, hw, by simp [sepText, hne]⟩
    have hbuild : ∀ d, buildOf v.Build = some d → IsD d ∧ d.head? ≠ some '0' := by
      intro d hd
      unfold buildOf at hd
      split_ifs at hd with hpos
      injection hd with hd
      subst hd
      have h9 : v.Build ≤ 999999999 := by rw [hv]; exact hbv9
      exact ⟨fmtUint_isD _ (by omega), fmtUint_head _ (by omega)⟩
    refine ⟨fmtUint v.Major.toNat, fmtUint v.Minor.toNat, sepText v.Tag.data,
      fmtUint v.Patch.toNat, buildText (buildOf v.Build), v.Series.data, v.Arch.data, ?_, ?_, ?_,
      hsep, ?_, ?_, ?_, ?_, fmtUint_noLeadingZero _, fmtUint_noLeadingZero _,
      fun _ => fmtUint_noLeadingZero _, ?_⟩
    · rw [hrender]
      simp [binaryText, numberText]
    · rw [hv]
      exact fmtUint_isD _ (by simpa using decimalValue_lt_of_isD ha)
    · rw [hv]
      exact fmtUint_isD _ (by simpa using decimalValue_lt_of_isD hb)
    · rw [hv]
      exact fmtUint_isD _ (by simpa using decimalValue_lt_of_isD hcD)
    · cases hbo : buildOf v.Build with
      | none => left; rfl
      | some d => right; exact ⟨d, (hbuild d hbo).1, rfl⟩
    · rw [hv]; exact hse
    · rw [hv]; exact har
    · intro d hd
      cases hbo : buildOf v.Build with
      | none => rw [hbo] at hd; simp [buildText] at hd
      | some d2 =>
        rw [hbo] at hd
        simp only [buildText] at hd
        injection hd with _ hd
        subst hd
        exact (hbuild d2 hbo).2
  · rintro ⟨major, minor, sep, patch, build, series, arch, hs, h1, h2, h3, h4, h5, hse, har,
      z1, z2, z3, z4⟩
    obtain ⟨tag, c, ob, he, hc, hob, hb, hrel⟩ :=
      grammar_text_rel major minor sep patch build h1 h2 h3 h4 h5
    have hs2 : s = String.mk (binaryText major minor tag c ob series arch) := by
      apply String.ext
      rw [hs, he]
      rfl
    have hp := parseBinary_binaryText major minor tag c ob series arch h1 h2 hc hob hse har
    rw [← hs2, h] at hp
    have hv := (Prod.mk.inj (Option.some.inj hp)).1
    have zc : NoLeadingZero c := by
      rcases hc with ⟨ht, -⟩ | ⟨-, x, hx, -⟩
      · obtain ⟨hsep, hcp⟩ := hrel ht
        rw [hcp]; exact z3 hsep
      · left; rw [hx]; rfl
    have zo : ∀ d, ob = some d → d.head? ≠ some '0' := by
      intro d hd
      apply z4 d
      rw [hb, hd]; rfl
    rw [hv, hs2]
    exact string_of_canonical_parts major minor tag c ob series arch h1 h2 (patchOk_isD hc) hob
      z1 z2 zc zo

/-! ## Failure results, the round-trip domain and the tag run -/

theorem parse_error_zero (s : String) (v : Number) (e : Error)
    (h : Parse s = some (v, some e)) : v = Zero := by
  cases hf : FindStringSubmatch numberPat s with
  | none =>
    rw [parse_of_find_none s hf] at h
    exact ((Prod.mk.inj (Option.some.inj h)).1).symm
  | some m =>
    obtain ⟨a, b, tag, c, ob, ha, hb, hc, hob, hs, -⟩ := find_numberPat_shape s m hf
    have hp := parse_numberText a b tag c ob ha hb hc hob
    rw [← hs, h] at hp
    have := (Prod.mk.inj (Option.some.inj hp)).2
    cases this

theorem parseBinary_error_zero (s : String) (v : Binary) (e : Error)
    (h : ParseBinary s = some (v, some e)) : v = Binary.zero := by
  cases hf : FindStringSubmatch binaryPat s with
  | none =>
    rw [parseBinary_of_find_none s hf] at h
    exact ((Prod.mk.inj (Option.some.inj h)).1).symm
  | some m =>
    obtain ⟨a, b, tag, c, ob, series, arch, ha, hb, hc, hob, hse, har, hs, -⟩ :=
      find_binaryPat_shape s m hf
    have hp := parseBinary_binaryText a b tag c ob series arch ha hb hc hob hse har
    rw [← hs, h] at hp
    have := (Prod.mk.inj (Option.some.inj hp)).2
    cases this

/-- Every string gives `Parse` a value or an error, never a panic. -/
theorem parse_total (s : String) : ∃ r, Parse s = some r := by
  cases hf : FindStringSubmatch numberPat s with
  | none => exact ⟨_, parse_of_find_none s hf⟩
  | some m =>
    obtain ⟨a, b, tag, c, ob, ha, hb, hc, hob, hs, -⟩ := find_numberPat_shape s m hf
    have hp := parse_numberText a b tag c ob ha hb hc hob
    rw [← hs] at hp
    exact ⟨_, hp⟩

/-- Every string gives `ParseBinary` a value or an error, never a panic. -/
theorem parseBinary_total (s : String) : ∃ r, ParseBinary s = some r := by
  cases hf : FindStringSubmatch binaryPat s with
  | none => exact ⟨_, parseBinary_of_find_none s hf⟩
  | some m =>
    obtain ⟨a, b, tag, c, ob, series, arch, ha, hb, hc, hob, hse, har, hs, -⟩ :=
      find_binaryPat_shape s m hf
    have hp := parseBinary_binaryText a b tag c ob series arch ha hb hc hob hse har
    rw [← hs] at hp
    exact ⟨_, hp⟩

theorem buildText_slice (ob : Option (List Char)) (hob : ∀ d, ob = some d → IsD d)
    (hne : String.mk (buildText ob) ≠ "") : IsD (sliceFrom (String.mk (buildText ob)) 1).data := by
  cases ob with
  | none => exact absurd rfl hne
  | some d => exact hob d rfl

theorem buildValue_range (ob : Option (List Char)) (hob : ∀ d, ob = some d → IsD d) :
    0 ≤ buildValue ob ∧ buildValue ob ≤ 999999999 := by
  cases ob with
  | none => simp [buildValue]
  | some d =>
    have := decimalValue_lt_of_isD (hob d rfl)
    simp only [buildValue]
    omega

theorem decimalValue_single (x : Char) (hx : isDigitChar x = true) : decimalValue [x] ≤ 9 := by
  have := (isDigitChar_iff x).1 hx
  simp [decimalValue]
  omega

/-- The patch of a parsed value is at most 9 when the tag is not empty. -/
theorem patchOk_tagged {tag c : List Char} (h : PatchOk tag c) (hne : tag ≠ []) :
    IsW tag ∧ ∃ x, c = [x] ∧ isDigitChar x = true := by
  rcases h with ⟨ht, -⟩ | h
  · exact absurd ht hne
  · exact h

/-- The round trip holds inside the domain (shared by the domain statements). -/
theorem parse_string_of_bounds (v : Number)
    (hMajor : 0 ≤ v.Major ∧ v.Major ≤ 999999999) (hMinor : 0 ≤ v.Minor ∧ v.Minor ≤ 999999999)
    (hPatch : 0 ≤ v.Patch ∧ v.Patch ≤ 999999999) (hBuild : 0 ≤ v.Build ∧ v.Build ≤ 999999999)
    (hTag : v.Tag = "" ∨ IsW v.Tag.data) (hTagPatch : v.Tag ≠ "" → v.Patch ≤ 9) :
    Parse v.String = some (v, none) := by
  have hc : PatchOk v.Tag.data (fmtUint v.Patch.toNat) := by
    by_cases ht : v.Tag = ""
    · exact Or.inl ⟨(tag_empty_iff _).1 ht, fmtUint_isD _ (by omega)⟩
    · have hw : IsW v.Tag.data := by
        rcases hTag with h | h
        · exact absurd h ht
        · exact h
      have h9 := hTagPatch ht
      refine Or.inr ⟨hw, Nat.digitChar v.Patch.toNat, fmtUint_small _ (by omega), ?_⟩
      exact (digitChar_isDigit _ (by omega)).1
  rw [number_string_eq v hMajor.1 hMinor.1 hPatch.1 hBuild.1,
    parse_numberText _ _ _ _ _ (fmtUint_isD _ (by omega)) (fmtUint_isD _ (by omega)) hc
      (buildOf_isD _ hBuild.2)]
  simp only [decimalValue_fmtUint, buildValue_buildOf _ hBuild.1, Int.toNat_of_nonneg hMajor.1,
    Int.toNat_of_nonneg hMinor.1, Int.toNat_of_nonneg hPatch.1]

theorem isD_no_hyphen {l : List Char} (h : IsD l) : ∀ c ∈ l, c ≠ '-' :=
  fun c hc => digit_ne_hyphen (h.2.2 c hc)

theorem noHead_word_buildText (ob : Option (List Char)) : NoHead .word (buildText ob) := by
  have := noHead_buildText .word ob [] (by decide) (noHead_nil _)
  simpa using this

/-- The word run after the hyphen of a tagged canonical text. -/
theorem wordRun_numberText (a b tag : List Char) (x : Char) (ob : Option (List Char))
    (ha : IsD a) (hb : IsD b) (htag : IsW tag) (hx : isDigitChar x = true) :
    wordRunAfterHyphen (numberText a b tag [x] ob) = tag ++ [x] := by
  have hne : ¬ tag = [] := by
    intro e; subst e; exact absurd htag.1 (by simp)
  have e : numberText a b tag [x] ob = (a ++ '.' :: b) ++ '-' :: ((tag ++ [x]) ++ buildText ob) := by
    simp [numberText, sepText, hne]
  rw [e]
  apply wordRunAfterHyphen_eq
  · intro c hc
    rcases List.mem_append.1 hc with hc | hc
    · exact isD_no_hyphen ha c hc
    · rcases List.mem_cons.1 hc with rfl | hc
      · decide
      · exact isD_no_hyphen hb c hc
  · intro c hc
    rcases List.mem_append.1 hc with hc | hc
    · exact htag.2 c hc
    · simp at hc; subst hc; exact digit_is_word hx
  · exact noHead_word_buildText ob

/-- An untagged canonical text has no hyphen. -/
theorem no_hyphen_untagged (a b c : List Char) (ob : Option (List Char))
    (ha : IsD a) (hb : IsD b) (hc : IsD c) (hob : ∀ d, ob = some d → IsD d) :
    '-' ∉ numberText a b [] c ob := by
  have hd : ∀ l : List Char, IsD l → '-' ∉ l := fun l hl h => isD_no_hyphen hl _ h rfl
  have hbuild : '-' ∉ buildText ob := by
    cases ob with
    | none => simp [buildText]
    | some d =>
      intro h
      rcases List.mem_cons.1 h with h | h
      · exact absurd h (by decide)
      · exact hd d (hob d rfl) h
  have e : numberText a b [] c ob = a ++ ('.' :: (b ++ ('.' :: (c ++ buildText ob)))) := by
    simp [numberText, sepText]
  rw [e]
  intro hmem
  rcases List.mem_append.1 hmem with h | h
  · exact hd a ha h
  · rcases List.mem_cons.1 h with h | h
    · exact absurd h (by decide)
    · rcases List.mem_append.1 h with h | h
      · exact hd b hb h
      · rcases List.mem_cons.1 h with h | h
        · exact absurd h (by decide)
        · rcases List.mem_append.1 h with h | h
          · exact hd c hc h
          · exact hbuild h

/-! ## The properties of the specification -/

/-- C1 (as stated, refuted): the round trip fails for `Number{1000000000, 0, "", 0, 0}`,
whose rendering `"1000000000.0.0"` has a ten-digit group and is rejected, and for
`Number{1, 2, "beta", 12, 0}`, whose rendering `"1.2-beta12"` parses to
`Number{1, 2, "beta1", 2, 0}`; both satisfy the stated conditions. -/
theorem number_round_trip_counterexample :
    ((0 : Int) ≤ 1000000000 ∧ ("" : String) = "" ∧
      Parse (Number.String ⟨1000000000, 0, "", 0, 0⟩)
        = some (Zero, some (Error.invalidVersion "1000000000.0.0"))) ∧
    ((0 : Int) ≤ 12 ∧ IsW ("beta" : String).data ∧
      Parse (Number.String ⟨1, 2, "beta", 12, 0⟩) = some (⟨1, 2, "beta1", 2, 0⟩, none) ∧
      (⟨1, 2, "beta1", 2, 0⟩ : Number) ≠ ⟨1, 2, "beta", 12, 0⟩) := by
  refine ⟨⟨by decide, rfl, by decide⟩, ⟨by decide, ⟨by decide, by decide⟩, by decide, by decide⟩⟩

/-- C1 (amended): for every Number whose Major, Minor, Patch and Build lie in
0..999999999, whose Tag is empty or made of word characters, and whose Patch is at
most 9 when the Tag is non-empty, `Parse(v.String())` succeeds and returns `v`. -/
theorem number_round_trip (v : Number)
    (hMajor : 0 ≤ v.Major ∧ v.Major ≤ 999999999) (hMinor : 0 ≤ v.Minor ∧ v.Minor ≤ 999999999)
    (hPatch : 0 ≤ v.Patch ∧ v.Patch ≤ 999999999) (hBuild : 0 ≤ v.Build ∧ v.Build ≤ 999999999)
    (hTag : v.Tag = "" ∨ IsW v.Tag.data) (hTagPatch : v.Tag ≠ "" → v.Patch ≤ 9) :
    Parse v.String = some (v, none) := by
  have hc : PatchOk v.Tag.data (fmtUint v.Patch.toNat) := by
    by_cases ht : v.Tag = ""
    · exact Or.inl ⟨(tag_empty_iff _).1 ht, fmtUint_isD _ (by omega)⟩
    · have hw : IsW v.Tag.data := by
        rcases hTag with h | h
        · exact absurd h ht
        · exact h
      have h9 := hTagPatch ht
      refine Or.inr ⟨hw, Nat.digitChar v.Patch.toNat, fmtUint_small _ (by omega), ?_⟩
      exact (digitChar_isDigit _ (by omega)).1
  rw [number_string_eq v hMajor.1 hMinor.1 hPatch.1 hBuild.1,
    parse_numberText _ _ _ _ _ (fmtUint_isD _ (by omega)) (fmtUint_isD _ (by omega)) hc
      (buildOf_isD _ hBuild.2)]
  simp only [decimalValue_fmtUint, buildValue_buildOf _ hBuild.1, Int.toNat_of_nonneg hMajor.1,
    Int.toNat_of_nonneg hMinor.1, Int.toNat_of_nonneg hPatch.1]

/-- Witness of `number_round_trip` at `Number{1, 2, "beta", 3, 4}`. -/
theorem number_round_trip_witness :
    Parse (Number.String ⟨1, 2, "beta", 3, 4⟩) = some (⟨1, 2, "beta", 3, 4⟩, none) :=
  number_round_trip ⟨1, 2, "beta", 3, 4⟩ (by decide) (by decide) (by decide) (by decide)
    (Or.inr ⟨by decide, by decide⟩) (by decide)

/-- C2: `Compare` is the field-priority reference order (first differing field
among Major, Minor, Tag, Patch, Build decides, with the tag rule for Tag); it is 0
exactly when all five fields are equal, and it is always -1, 0 or +1. -/
theorem compare_is_field_priority_order (v w : Number) :
    v.Compare w = compareRef v w ∧
    (v.Compare w = 0 ↔ (v.Major = w.Major ∧ v.Minor = w.Minor ∧ v.Tag = w.Tag ∧
      v.Patch = w.Patch ∧ v.Build = w.Build)) ∧
    (v.Compare w = -1 ∨ v.Compare w = 0 ∨ v.Compare w = 1) := by
  refine ⟨compare_eq_compareRef v w, ?_, ?_⟩
  · rw [compare_eq_compareRef, compareRef_eq_zero]
    obtain ⟨a1, a2, a3, a4, a5⟩ := v
    obtain ⟨b1, b2, b3, b4, b5⟩ := w
    simp
  · rw [compare_eq_compareRef]
    have := compareRef_range v w
    omega

/-- C3: with equal Major and Minor, an empty Tag beats a non-empty Tag whatever
Patch and Build are, in both argument orders; and `Parse("1.2.0")` compares +1
against `Parse("1.2-beta1")`. -/
theorem release_beats_prerelease (v w : Number) (hMajor : v.Major = w.Major)
    (hMinor : v.Minor = w.Minor) (hv : v.Tag = "") (hw : w.Tag ≠ "") :
    (v.Compare w = 1 ∧ w.Compare v = -1) ∧
    (Parse "1.2.0" = some (⟨1, 2, "", 0, 0⟩, none) ∧
      Parse "1.2-beta1" = some (⟨1, 2, "beta", 1, 0⟩, none) ∧
      (⟨1, 2, "", 0, 0⟩ : Number).Compare ⟨1, 2, "beta", 1, 0⟩ = 1) := by
  have hne : v.Tag ≠ w.Tag := by rw [hv]; exact fun h => hw h.symm
  have hvw : v ≠ w := fun h => hne (by rw [h])
  have hwv : w ≠ v := fun h => hvw h.symm
  refine ⟨⟨?_, ?_⟩, ⟨by decide, by decide, by decide⟩⟩
  · have hne' : ¬ ("" = w.Tag) := fun h => hw h.symm
    unfold Number.Compare
    simp only [hvw, if_false, hMajor, hMinor, ne_eq, not_true_eq_false, hv, hne',
      not_false_eq_true, if_true]
    rfl
  · have hne' : ¬ (w.Tag = "") := hw
    unfold Number.Compare
    simp only [hwv, if_false, hMajor, hMinor, ne_eq, not_true_eq_false, hv, hne',
      not_false_eq_true, if_true]

/-- Witness of `release_beats_prerelease` at `1.2.0` against `1.2-beta1`. -/
theorem release_beats_prerelease_witness :
    ((⟨1, 2, "", 0, 0⟩ : Number).Compare ⟨1, 2, "beta", 7, 9⟩ = 1 ∧
      (⟨1, 2, "beta", 7, 9⟩ : Number).Compare ⟨1, 2, "", 0, 0⟩ = -1) :=
  (release_beats_prerelease ⟨1, 2, "", 0, 0⟩ ⟨1, 2, "beta", 7, 9⟩ rfl rfl rfl (by decide)).1

/-- C4: `Compare` is antisymmetric: `v.Compare(w) = -(w.Compare(v))` for all Numbers. -/
theorem compare_antisymmetric (v w : Number) : v.Compare w = -(w.Compare v) := by
  rw [compare_eq_compareRef, compare_eq_compareRef]
  exact compareRef_neg v w

/-- C5: `Compare` is transitive: from `u.Compare(v) ≤ 0` and `v.Compare(w) ≤ 0`
follows `u.Compare(w) ≤ 0`, and -1 twice gives -1. -/
theorem compare_transitive (u v w : Number) (huv : u.Compare v ≤ 0) (hvw : v.Compare w ≤ 0) :
    u.Compare w ≤ 0 ∧ (u.Compare v = -1 → v.Compare w = -1 → u.Compare w = -1) := by
  rw [compare_eq_compareRef] at huv hvw ⊢
  rw [compare_eq_compareRef, compare_eq_compareRef]
  obtain ⟨⟨a1, a2⟩, ⟨b1, b2⟩, ⟨d1, d2⟩, h1, h2, h3, h4⟩ := compareRef_coherent u v w
  omega

/-- Witness of `compare_transitive` at `1.2-alpha1 < 1.2-beta1 < 1.2.0`. -/
theorem compare_transitive_witness :
    (⟨1, 2, "alpha", 1, 0⟩ : Number).Compare ⟨1, 2, "beta", 1, 0⟩ ≤ 0 ∧
    (⟨1, 2, "beta", 1, 0⟩ : Number).Compare ⟨1, 2, "", 0, 0⟩ ≤ 0 ∧
    ((⟨1, 2, "alpha", 1, 0⟩ : Number).Compare ⟨1, 2, "", 0, 0⟩ ≤ 0 ∧
      ((⟨1, 2, "alpha", 1, 0⟩ : Number).Compare ⟨1, 2, "beta", 1, 0⟩ = -1 →
        (⟨1, 2, "beta", 1, 0⟩ : Number).Compare ⟨1, 2, "", 0, 0⟩ = -1 →
        (⟨1, 2, "alpha", 1, 0⟩ : Number).Compare ⟨1, 2, "", 0, 0⟩ = -1)) :=
  ⟨by decide, by decide,
    compare_transitive ⟨1, 2, "alpha", 1, 0⟩ ⟨1, 2, "beta", 1, 0⟩ ⟨1, 2, "", 0, 0⟩
      (by decide) (by decide)⟩

/-- C6: `Parse` returns no error exactly on the strings of the grammar
`D "." D ("." | "-" W) D ["." D]` (whole string, `D` one to nine digits, `W` one or
more word characters), and every other string yields the invalid-version error. -/
theorem parse_accepts_exactly_grammar (s : String) :
    ((∃ v, Parse s = some (v, none)) ↔ NumberGrammar s) ∧
    (Parse s = some (Zero, some (Error.invalidVersion s)) ↔ ¬ NumberGrammar s) := by
  constructor
  · constructor
    · rintro ⟨v, hv⟩
      obtain ⟨m, hm⟩ := parse_ok_find s v hv
      exact find_numberPat_sound s m hm
    · exact parse_of_grammar s
  · constructor
    · intro herr hg
      obtain ⟨v, hv⟩ := parse_of_grammar s hg
      rw [hv] at herr
      simp at herr
    · exact parse_error_of_not_grammar s

/-- Witness of `parse_accepts_exactly_grammar`: `"1.2-beta3.4"` is in the grammar, so it parses. -/
theorem parse_accepts_exactly_grammar_witness : ∃ v, Parse "1.2-beta3.4" = some (v, none) :=
  (parse_accepts_exactly_grammar "1.2-beta3.4").1.2
    ⟨['1'], ['2'], ['-', 'b', 'e', 't', 'a'], ['3'], ['.', '4'], rfl,
      ⟨by decide, by decide, by decide⟩, ⟨by decide, by decide, by decide⟩,
      Or.inr ⟨['b', 'e', 't', 'a'], ⟨by decide, by decide⟩, rfl⟩,
      ⟨by decide, by decide, by decide⟩,
      Or.inr ⟨['4'], ⟨by decide, by decide, by decide⟩, rfl⟩⟩

/-- C7: `Parse` returns the invalid-version error for every string that does not
begin with an ASCII digit, or does not end with an ASCII digit, or has more than
three dots; and for `""`, `"1.2"`, `"v1.2.3"` and `"1.2.3.4.5"`. -/
theorem parse_rejects_malformed (s : String)
    (h : (∀ c, s.data.head? = some c → isDigitChar c = false) ∨
         (∀ c, s.data.getLast? = some c → isDigitChar c = false) ∨
         3 < s.data.count '.') :
    Parse s = some (Zero, some (Error.invalidVersion s)) ∧
    Parse "" = some (Zero, some (Error.invalidVersion "")) ∧
    Parse "1.2" = some (Zero, some (Error.invalidVersion "1.2")) ∧
    Parse "v1.2.3" = some (Zero, some (Error.invalidVersion "v1.2.3")) ∧
    Parse "1.2.3.4.5" = some (Zero, some (Error.invalidVersion "1.2.3.4.5")) := by
  refine ⟨?_, by decide, by decide, by decide, by decide⟩
  apply parse_error_of_not_grammar
  intro hg
  rcases h with h | h | h
  · obtain ⟨c, hc, hd⟩ := grammar_head s hg
    rw [h c hc] at hd
    exact Bool.noConfusion hd
  · obtain ⟨c, hc, hd⟩ := grammar_last s hg
    rw [h c hc] at hd
    exact Bool.noConfusion hd
  · have := grammar_dots s hg
    omega

/-- Witness of `parse_rejects_malformed` at `"1.2.3 "` (trailing space). -/
theorem parse_rejects_malformed_witness :
    Parse "1.2.3 " = some (Zero, some (Error.invalidVersion "1.2.3 ")) :=
  (parse_rejects_malformed "1.2.3 "
    (Or.inr (Or.inl (fun c hc => by
      have e : c = ' ' := by
        have h2 : some ' ' = some c := hc
        injection h2 with h2
        exact h2.symm
      subst e
      decide)))).1

/-- C8: for digit strings `a`, `b`, `c`, `d` of one to nine digits each,
`Parse(a.b.c)` is `Number{value a, value b, "", value c, 0}` and `Parse(a.b.c.d)`
is the same with `Build = value d`, `value` being the base-10 value. -/
theorem parse_decodes_untagged (a b c d : String)
    (ha : IsD a.data) (hb : IsD b.data) (hc : IsD c.data) (hd : IsD d.data) :
    Parse (a ++ "." ++ b ++ "." ++ c)
      = some ({ Major := decimalValue a.data, Minor := decimalValue b.data, Tag := "",
                Patch := decimalValue c.data, Build := 0 }, none) ∧
    Parse (a ++ "." ++ b ++ "." ++ c ++ "." ++ d)
      = some ({ Major := decimalValue a.data, Minor := decimalValue b.data, Tag := "",
                Patch := decimalValue c.data, Build := decimalValue d.data }, none) := by
  have e1 : a ++ "." ++ b ++ "." ++ c = String.mk (numberText a.data b.data [] c.data none) := by
    apply String.ext
    simp [numberText, sepText, buildText, dot_data]
  have e2 : a ++ "." ++ b ++ "." ++ c ++ "." ++ d
      = String.mk (numberText a.data b.data [] c.data (some d.data)) := by
    apply String.ext
    simp [numberText, sepText, buildText, dot_data]
  have hob : ∀ x, some d.data = some x → IsD x := by
    intro x hx; injection hx with hx; subst hx; exact hd
  rw [e2, e1, parse_numberText _ _ _ _ none ha hb (Or.inl ⟨rfl, hc⟩) (by intro x hx; cases hx),
    parse_numberText _ _ _ _ (some d.data) ha hb (Or.inl ⟨rfl, hc⟩) hob]
  exact ⟨rfl, rfl⟩

/-- Witness of `parse_decodes_untagged` at `"01"`, `"2"`, `"003"`, `"4"`. -/
theorem parse_decodes_untagged_witness :
    Parse ("01" ++ "." ++ "2" ++ "." ++ "003")
      = some ({ Major := decimalValue ("01" : String).data,
                Minor := decimalValue ("2" : String).data, Tag := "",
                Patch := decimalValue ("003" : String).data, Build := 0 }, none) ∧
    Parse ("01" ++ "." ++ "2" ++ "." ++ "003" ++ "." ++ "4")
      = some ({ Major := decimalValue ("01" : String).data,
                Minor := decimalValue ("2" : String).data, Tag := "",
                Patch := decimalValue ("003" : String).data,
                Build := decimalValue ("4" : String).data }, none) :=
  parse_decodes_untagged "01" "2" "003" "4" ⟨by decide, by decide, by decide⟩
    ⟨by decide, by decide, by decide⟩ ⟨by decide, by decide, by decide⟩
    ⟨by decide, by decide, by decide⟩

/-- C9: for non-negative numeric fields, `v.String()` is
`dec(Major) "." dec(Minor) "." dec(Patch)` when the Tag is empty and
`dec(Major) "." dec(Minor) "-" Tag dec(Patch)` otherwise, followed by `"." dec(Build)`
exactly when `Build > 0`, where `dec` is the shortest decimal numeral; and
`Number{1,2,"",3,0}` renders `"1.2.3"`, `Number{1,2,"",3,4}` renders `"1.2.3.4"`. -/
theorem string_is_canonical (v : Number) (hMajor : 0 ≤ v.Major) (hMinor : 0 ≤ v.Minor)
    (hPatch : 0 ≤ v.Patch) (hBuild : 0 ≤ v.Build) :
    (∃ M m P B : String,
      IsShortestDecimal v.Major M ∧ IsShortestDecimal v.Minor m ∧
      IsShortestDecimal v.Patch P ∧ IsShortestDecimal v.Build B ∧
      v.String = (if v.Tag = "" then M ++ "." ++ m ++ "." ++ P
                  else M ++ "." ++ m ++ "-" ++ v.Tag ++ P)
                 ++ (if v.Build > 0 then "." ++ B else "")) ∧
    Number.String ⟨1, 2, "", 3, 0⟩ = "1.2.3" ∧ Number.String ⟨1, 2, "", 3, 4⟩ = "1.2.3.4" := by
  refine ⟨⟨fmtD v.Major, fmtD v.Minor, fmtD v.Patch, fmtD v.Build, ?_, ?_, ?_, ?_, ?_⟩,
    by decide, by decide⟩
  · rw [fmtD_nonneg _ hMajor]
    have := fmtUint_shortest v.Major.toNat
    rwa [Int.toNat_of_nonneg hMajor] at this
  · rw [fmtD_nonneg _ hMinor]
    have := fmtUint_shortest v.Minor.toNat
    rwa [Int.toNat_of_nonneg hMinor] at this
  · rw [fmtD_nonneg _ hPatch]
    have := fmtUint_shortest v.Patch.toNat
    rwa [Int.toNat_of_nonneg hPatch] at this
  · rw [fmtD_nonneg _ hBuild]
    have := fmtUint_shortest v.Build.toNat
    rwa [Int.toNat_of_nonneg hBuild] at this
  · unfold Number.String
    apply String.ext
    by_cases ht : v.Tag = ""
    · by_cases hb : v.Build > 0
      · simp [ht, hb]
      · simp [ht, hb]
    · by_cases hb : v.Build > 0
      · simp [ht, hb]
      · simp [ht, hb]

/-- Witness of `string_is_canonical` at `Number{1, 2, "rc", 3, 4}`, which renders `"1.2-rc3.4"`. -/
theorem string_is_canonical_witness :
    ∃ M m P B : String,
      IsShortestDecimal 1 M ∧ IsShortestDecimal 2 m ∧ IsShortestDecimal 3 P ∧
      IsShortestDecimal 4 B ∧
      Number.String ⟨1, 2, "rc", 3, 4⟩ = (if ("rc" : String) = "" then M ++ "." ++ m ++ "." ++ P
                  else M ++ "." ++ m ++ "-" ++ "rc" ++ P)
                 ++ (if (4 : Int) > 0 then "." ++ B else "") :=
  (string_is_canonical ⟨1, 2, "rc", 3, 4⟩ (by decide) (by decide) (by decide) (by decide)).1

/-- C10 (as stated, refuted): the round trip fails for the Binary with Number
`{1000000000, 0, "", 0, 0}`, series `trusty`, arch `amd64`, whose rendering is
rejected, and for the Binary with Number `{1, 2, "beta", 12, 0}`, whose rendering
`"1.2-beta12-trusty-amd64"` parses to Number `{1, 2, "beta1", 2, 0}`. -/
theorem binary_round_trip_counterexample :
    (IsSeg ("trusty" : String).data ∧ IsSeg ("amd64" : String).data ∧
      IsW ("beta" : String).data) ∧
    ParseBinary (Binary.String ⟨⟨1000000000, 0, "", 0, 0⟩, "trusty", "amd64"⟩)
      = some (Binary.zero,
          some (Error.invalidBinaryVersion "1000000000.0.0-trusty-amd64")) ∧
    ParseBinary (Binary.String ⟨⟨1, 2, "beta", 12, 0⟩, "trusty", "amd64"⟩)
      = some (⟨⟨1, 2, "beta1", 2, 0⟩, "trusty", "amd64"⟩, none) ∧
    (⟨⟨1, 2, "beta1", 2, 0⟩, "trusty", "amd64"⟩ : Binary)
      ≠ ⟨⟨1, 2, "beta", 12, 0⟩, "trusty", "amd64"⟩ := by
  refine ⟨⟨⟨by decide, by decide⟩, ⟨by decide, by decide⟩, ⟨by decide, by decide⟩⟩,
    by decide, by decide, by decide⟩

/-- C10 (amended): for every Binary whose Major, Minor, Patch and Build lie in
0..999999999, whose Tag is empty or made of word characters, whose Patch is at most 9
when the Tag is non-empty, and whose Series and Arch are non-empty without hyphen,
`ParseBinary(b.String())` succeeds and returns `b`. -/
theorem binary_round_trip (b : Binary)
    (hMajor : 0 ≤ b.Major ∧ b.Major ≤ 999999999) (hMinor : 0 ≤ b.Minor ∧ b.Minor ≤ 999999999)
    (hPatch : 0 ≤ b.Patch ∧ b.Patch ≤ 999999999) (hBuild : 0 ≤ b.Build ∧ b.Build ≤ 999999999)
    (hTag : b.Tag = "" ∨ IsW b.Tag.data) (hTagPatch : b.Tag ≠ "" → b.Patch ≤ 9)
    (hSeries : IsSeg b.Series.data) (hArch : IsSeg b.Arch.data) :
    ParseBinary b.String = some (b, none) := by
  have hc : PatchOk b.Tag.data (fmtUint b.Patch.toNat) := by
    by_cases ht : b.Tag = ""
    · exact Or.inl ⟨(tag_empty_iff _).1 ht, fmtUint_isD _ (by omega)⟩
    · have hw : IsW b.Tag.data := by
        rcases hTag with h | h
        · exact absurd h ht
        · exact h
      have h9 := hTagPatch ht
      refine Or.inr ⟨hw, Nat.digitChar b.Patch.toNat, fmtUint_small _ (by omega), ?_⟩
      exact (digitChar_isDigit _ (by omega)).1
  rw [binary_string_eq b hMajor.1 hMinor.1 hPatch.1 hBuild.1,
    parseBinary_binaryText _ _ _ _ _ _ _ (fmtUint_isD _ (by omega)) (fmtUint_isD _ (by omega)) hc
      (buildOf_isD _ hBuild.2) hSeries hArch]
  simp only [decimalValue_fmtUint, buildValue_buildOf _ hBuild.1, Int.toNat_of_nonneg hMajor.1,
    Int.toNat_of_nonneg hMinor.1, Int.toNat_of_nonneg hPatch.1]

/-- Witness of `binary_round_trip` at `1.2-beta3.4-trusty-amd64`. -/
theorem binary_round_trip_witness :
    ParseBinary (Binary.String ⟨⟨1, 2, "beta", 3, 4⟩, "trusty", "amd64"⟩)
      = some (⟨⟨1, 2, "beta", 3, 4⟩, "trusty", "amd64"⟩, none) :=
  binary_round_trip ⟨⟨1, 2, "beta", 3, 4⟩, "trusty", "amd64"⟩ (by decide) (by decide)
    (by decide) (by decide) (Or.inr ⟨by decide, by decide⟩) (by decide)
    ⟨by decide, by decide⟩ ⟨by decide, by decide⟩

/-- C11: `ParseBinary(s)` succeeds exactly when `s = p + "-" + series + "-" + arch`
with `Parse(p)` succeeding and `series`, `arch` non-empty and free of hyphens; then
the result is `Binary{Number: Parse(p), Series: series, Arch: arch}`, `arch` being the
text after the last hyphen of `s` and `series` the text between the last two. -/
theorem parseBinary_is_parse_plus_segments (s : String) :
    ((∃ b, ParseBinary s = some (b, none)) ↔
      ∃ (p series arch : String) (n : Number), s = p ++ "-" ++ series ++ "-" ++ arch ∧
        Parse p = some (n, none) ∧ IsSeg series.data ∧ IsSeg arch.data) ∧
    (∀ (p series arch : String) (n : Number), s = p ++ "-" ++ series ++ "-" ++ arch →
        Parse p = some (n, none) → IsSeg series.data → IsSeg arch.data →
        ParseBinary s = some ({ toNumber := n, Series := series, Arch := arch }, none) ∧
        arch.data = afterLastHyphen s.data ∧
        series.data = afterLastHyphen (beforeLastHyphen s.data) ∧
        p.data = beforeLastHyphen (beforeLastHyphen s.data)) := by
  have key : ∀ (p series arch : String) (n : Number), s = p ++ "-" ++ series ++ "-" ++ arch →
      Parse p = some (n, none) → IsSeg series.data → IsSeg arch.data →
      ParseBinary s = some ({ toNumber := n, Series := series, Arch := arch }, none) ∧
      arch.data = afterLastHyphen s.data ∧
      series.data = afterLastHyphen (beforeLastHyphen s.data) ∧
      p.data = beforeLastHyphen (beforeLastHyphen s.data) := by
    intro p series arch n hs hp hse har
    obtain ⟨a, b, tag, c, ob, ha, hb, hc, hob, hpt, hn⟩ := parse_ok_shape p n hp
    have hdata : s.data = (p.data ++ '-' :: series.data) ++ '-' :: arch.data := by
      rw [hs]; simp [hyphen_data]
    have hs2 : s = String.mk (binaryText a b tag c ob series.data arch.data) := by
      apply String.ext
      rw [hdata, hpt]
      simp [binaryText]
    refine ⟨?_, ?_, ?_, ?_⟩
    · rw [hs2, parseBinary_binaryText a b tag c ob series.data arch.data ha hb hc hob hse har, hn]
    · rw [hdata, afterLastHyphen_append _ _ har.2]
    · rw [hdata, beforeLastHyphen_append _ _ har.2, afterLastHyphen_append _ _ hse.2]
    · rw [hdata, beforeLastHyphen_append _ _ har.2, beforeLastHyphen_append _ _ hse.2]
  refine ⟨⟨?_, ?_⟩, key⟩
  · rintro ⟨v, hv⟩
    obtain ⟨a, b, tag, c, ob, series, arch, ha, hb, hc, hob, hse, har, hs, -⟩ :=
      parseBinary_ok_shape s v hv
    refine ⟨String.mk (numberText a b tag c ob), String.mk series, String.mk arch, _, ?_,
      parse_numberText a b tag c ob ha hb hc hob, hse, har⟩
    rw [hs]
    apply String.ext
    simp [binaryText, hyphen_data]
  · rintro ⟨p, series, arch, n, hs, hp, hse, har⟩
    exact ⟨_, (key p series arch n hs hp hse har).1⟩

/-- Witness of `parseBinary_is_parse_plus_segments` at `"1.2-beta3-trusty-amd64"`. -/
theorem parseBinary_is_parse_plus_segments_witness :
    ParseBinary "1.2-beta3-trusty-amd64"
      = some ({ toNumber := ⟨1, 2, "beta", 3, 0⟩, Series := "trusty", Arch := "amd64" }, none) :=
  ((parseBinary_is_parse_plus_segments "1.2-beta3-trusty-amd64").2 "1.2-beta3" "trusty" "amd64"
    ⟨1, 2, "beta", 3, 0⟩ (by decide) (by decide) ⟨by decide, by decide⟩
    ⟨by decide, by decide⟩).1

/-- C12 (as stated, refuted): `"01.18.0-trusty-amd64"` and `"1.18.0.0-trusty-amd64"` are
both accepted, both parse to Number `{1, 18, "", 0, 0}` with series `trusty` and arch
`amd64`, and that value renders as `"1.18.0-trusty-amd64"`, not as either input. -/
theorem parseBinary_string_counterexample :
    ParseBinary "01.18.0-trusty-amd64" = some (⟨⟨1, 18, "", 0, 0⟩, "trusty", "amd64"⟩, none) ∧
    ParseBinary "1.18.0.0-trusty-amd64" = some (⟨⟨1, 18, "", 0, 0⟩, "trusty", "amd64"⟩, none) ∧
    Binary.String ⟨⟨1, 18, "", 0, 0⟩, "trusty", "amd64"⟩ = "1.18.0-trusty-amd64" ∧
    ("1.18.0-trusty-amd64" : String) ≠ "01.18.0-trusty-amd64" ∧
    ("1.18.0-trusty-amd64" : String) ≠ "1.18.0.0-trusty-amd64" := by
  refine ⟨by decide, by decide, by decide, by decide, by decide⟩

/-- C12 (amended): for every string `s` that `ParseBinary` accepts,
`ParseBinary(s).String() == s` holds exactly when `s` is written canonically (major,
minor and, after a dot, patch without superfluous leading zeros, and a build group,
if present, that does not start with `0`); `"1.18.0-trusty-amd64"` parses to Number
`{1, 18, "", 0, 0}`, series `trusty`, arch `amd64`, and renders back to itself. -/
theorem parseBinary_string_canonical (s : String) (b : Binary)
    (h : ParseBinary s = some (b, none)) :
    (b.String = s ↔ CanonicalBinaryText s) ∧
    ParseBinary "1.18.0-trusty-amd64" = some (⟨⟨1, 18, "", 0, 0⟩, "trusty", "amd64"⟩, none) ∧
    Binary.String ⟨⟨1, 18, "", 0, 0⟩, "trusty", "amd64"⟩ = "1.18.0-trusty-amd64" := by
  exact ⟨string_eq_iff_canonical s b h, by decide, by decide⟩

/-- Witness of `parseBinary_string_canonical` at `"1.2-rc3.4-trusty-amd64"`. -/
theorem parseBinary_string_canonical_witness :
    Binary.String ⟨⟨1, 2, "rc", 3, 4⟩, "trusty", "amd64"⟩ = "1.2-rc3.4-trusty-amd64" :=
  (parseBinary_string_canonical "1.2-rc3.4-trusty-amd64" ⟨⟨1, 2, "rc", 3, 4⟩, "trusty", "amd64"⟩
    (by decide)).1.2
    ⟨['1'], ['2'], ['-', 'r', 'c'], ['3'], ['.', '4'], ['t', 'r', 'u', 's', 't', 'y'],
      ['a', 'm', 'd', '6', '4'], rfl,
      ⟨by decide, by decide, by decide⟩, ⟨by decide, by decide, by decide⟩,
      Or.inr ⟨['r', 'c'], ⟨by decide, by decide⟩, rfl⟩,
      ⟨by decide, by decide, by decide⟩,
      Or.inr ⟨['4'], ⟨by decide, by decide, by decide⟩, rfl⟩,
      ⟨by decide, by decide⟩, ⟨by decide, by decide⟩,
      Or.inl rfl, Or.inl rfl, fun hsep => absurd hsep (by decide),
      fun d hd => by
        injection hd with _ hd
        subst hd
        decide⟩

/-- C13 (as stated, refuted): `"9223372036854775808"` is a decimal integer literal
(digits only, value 2^63) without a dot, yet `ParseMajorMinor` returns an error for
it: the value does not fit the 64-bit `int`. -/
theorem parseMajorMinor_results_counterexample :
    IsLit ("9223372036854775808" : String).data ∧
    decimalValue ("9223372036854775808" : String).data = 2 ^ 63 ∧
    ParseMajorMinor "9223372036854775808"
      = (-1, -1, some (Error.invalidMajor "9223372036854775808" Error.atoiRange)) := by
  refine ⟨⟨by decide, by decide⟩, by decide, by decide⟩

/-- C13 (amended): for digit strings `a` and `b` (one or more ASCII digits) whose
values fit the 64-bit `int` (at most 9223372036854775807), `ParseMajorMinor(a)`
returns `(value a, -1)` and `ParseMajorMinor(a + "." + b)` returns
`(value a, value b)`, both without error; `"2.7"` gives `(2, 7)` and `"2"` gives
`(2, -1)`. -/
theorem parseMajorMinor_results (a b : String) (ha : IsLit a.data) (hb : IsLit b.data)
    (hra : decimalValue a.data ≤ 9223372036854775807)
    (hrb : decimalValue b.data ≤ 9223372036854775807) :
    ParseMajorMinor a = ((decimalValue a.data : Int), -1, none) ∧
    ParseMajorMinor (a ++ "." ++ b)
      = ((decimalValue a.data : Int), (decimalValue b.data : Int), none) ∧
    ParseMajorMinor "2.7" = (2, 7, none) ∧ ParseMajorMinor "2" = (2, -1, none) := by
  have h1 : decimalValue a.data < 2 ^ 63 := by norm_num; omega
  have h2 : decimalValue b.data < 2 ^ 63 := by norm_num; omega
  exact ⟨parseMajorMinor_one a ha h1, parseMajorMinor_two a b ha hb h1 h2, by decide, by decide⟩

/-- Witness of `parseMajorMinor_results` at `"007"` and `"42"`. -/
theorem parseMajorMinor_results_witness :
    ParseMajorMinor "007" = (7, -1, none) ∧ ParseMajorMinor ("007" ++ "." ++ "42") = (7, 42, none) :=
  ⟨(parseMajorMinor_results "007" "42" ⟨by decide, by decide⟩ ⟨by decide, by decide⟩
      (by decide) (by decide)).1,
   (parseMajorMinor_results "007" "42" ⟨by decide, by decide⟩ ⟨by decide, by decide⟩
      (by decide) (by decide)).2.1⟩

/-- C14 (as stated, refuted): a segment that carries a sign is accepted:
`ParseMajorMinor("-2")` is `(-2, -1)`, `ParseMajorMinor("2.-7")` is `(2, -7)` and
`ParseMajorMinor("+2")` is `(2, -1)`, all without error. -/
theorem parseMajorMinor_fails_counterexample :
    ParseMajorMinor "-2" = (-2, -1, none) ∧ ParseMajorMinor "2.-7" = (2, -7, none) ∧
    ParseMajorMinor "+2" = (2, -1, none) := by
  refine ⟨by decide, by decide, by decide⟩

/-- C14 (amended): `ParseMajorMinor(s)` returns an error (with both integers -1)
whenever `s` splits on `"."` into three or more segments, or some segment is not an
optionally signed integer literal, that is, it is not an optional `+` or `-`
followed by one or more ASCII digits (so an empty segment, a lone sign and a segment
with any other non-digit character all fail). -/
theorem parseMajorMinor_fails (s : String)
    (h : 2 < (splitDot s.data).length ∨ ∃ seg ∈ splitDot s.data, ¬ IsSignedLit seg) :
    ∃ e, ParseMajorMinor s = (-1, -1, some e) := by
  rcases h with h | ⟨seg, hmem, hbad⟩
  · exact parseMajorMinor_many s h
  · exact parseMajorMinor_bad_piece s seg hmem hbad

/-- Witness of `parseMajorMinor_fails` at `"2."`, whose second segment is empty. -/
theorem parseMajorMinor_fails_witness : ∃ e, ParseMajorMinor "2." = (-1, -1, some e) :=
  parseMajorMinor_fails "2."
    (Or.inr ⟨[], by decide, by
      rintro ⟨sign, digits, hsd, -, hne, -⟩
      have hd : digits = [] := (List.append_eq_nil.1 hsd.symm).2
      exact hne hd⟩)

/-- C15: every string with at least two dots makes `ParseMajorMinor` return an error
(with both integers -1), whatever the segments contain; `"2.7.1"` is one. -/
theorem parseMajorMinor_three_segments (s : String) (h : 2 ≤ s.data.count '.') :
    (∃ e, ParseMajorMinor s = (-1, -1, some e)) ∧
    ParseMajorMinor "2.7.1" = (-1, -1, some (Error.invalidMajorMinor "2.7.1")) := by
  refine ⟨parseMajorMinor_many s ?_, by decide⟩
  rw [splitDot_length]
  omega

/-- Witness of `parseMajorMinor_three_segments` at `"x..1"`. -/
theorem parseMajorMinor_three_segments_witness :
    ∃ e, ParseMajorMinor "x..1" = (-1, -1, some e) :=
  (parseMajorMinor_three_segments "x..1" (by decide)).1

/-- C16: no partial result on failure: when `Parse(s)` returns an error the Number
is the zero Number, when `ParseBinary(s)` returns an error the Binary is the zero
Binary, and when `ParseMajorMinor(s)` returns an error both integers are -1, as for
`"2.x"` whose major segment `"2"` converts successfully. -/
theorem no_partial_result (s : String) :
    (∀ v e, Parse s = some (v, some e) → v = Zero) ∧
    (∀ b e, ParseBinary s = some (b, some e) → b = Binary.zero) ∧
    (∀ major minor e, ParseMajorMinor s = (major, minor, some e) → major = -1 ∧ minor = -1) ∧
    strconvAtoi "2" = (2, none) ∧
    ParseMajorMinor "2.x" = (-1, -1, some (Error.invalidMinor "x" Error.atoiSyntax)) := by
  exact ⟨parse_error_zero s, parseBinary_error_zero s, parseMajorMinor_error s,
    by decide, by decide⟩

/-- Witness of `no_partial_result`: `"1.2"` is rejected by `Parse` and `ParseBinary`, and
`"1.2.3"` by `ParseMajorMinor`. -/
theorem no_partial_result_witness :
    (Zero = Zero) ∧ (Binary.zero = Binary.zero) ∧ ((-1 : Int) = -1 ∧ (-1 : Int) = -1) :=
  ⟨(no_partial_result "1.2").1 Zero (Error.invalidVersion "1.2") (by decide),
   (no_partial_result "1.2").2.1 Binary.zero (Error.invalidBinaryVersion "1.2") (by decide),
   (no_partial_result "1.2.3").2.2.1 (-1) (-1) (Error.invalidMajorMinor "1.2.3") (by decide)⟩

/-- C17: every Number that `Parse` returns without error has Major, Minor, Patch and
Build in 0..999999999 and a Tag that is empty or made of word characters; so has the
Number inside every Binary that `ParseBinary` returns without error, whose Series and
Arch are moreover non-empty and free of hyphens. -/
theorem parse_establishes_invariant (s : String) :
    (∀ v, Parse s = some (v, none) → NumberInvariant v) ∧
    (∀ b, ParseBinary s = some (b, none) →
      NumberInvariant b.toNumber ∧ IsSeg b.Series.data ∧ IsSeg b.Arch.data) := by
  have inv : ∀ (a b tag c : List Char) (ob : Option (List Char)), IsD a → IsD b →
      PatchOk tag c → (∀ d, ob = some d → IsD d) →
      NumberInvariant { Major := decimalValue a, Minor := decimalValue b, Tag := String.mk tag,
                        Patch := decimalValue c, Build := buildValue ob } := by
    intro a b tag c ob ha hb hc hob
    have h1 := decimalValue_lt_of_isD ha
    have h2 := decimalValue_lt_of_isD hb
    have h3 := decimalValue_lt_of_isD (patchOk_isD hc)
    refine ⟨⟨by simp, by simp only; omega⟩, ⟨by simp, by simp only; omega⟩,
      ⟨by simp, by simp only; omega⟩, buildValue_range ob hob, ?_⟩
    rcases hc with ⟨ht, -⟩ | ⟨hw, -⟩
    · left; rw [ht]
    · right; exact hw
  constructor
  · intro v hv
    obtain ⟨a, b, tag, c, ob, ha, hb, hc, hob, -, hv2⟩ := parse_ok_shape s v hv
    rw [hv2]
    exact inv a b tag c ob ha hb hc hob
  · intro v hv
    obtain ⟨a, b, tag, c, ob, series, arch, ha, hb, hc, hob, hse, har, -, hv2⟩ :=
      parseBinary_ok_shape s v hv
    rw [hv2]
    exact ⟨inv a b tag c ob ha hb hc hob, hse, har⟩

/-- Witness of `parse_establishes_invariant` at `"1.2-beta3.4"`. -/
theorem parse_establishes_invariant_witness : NumberInvariant ⟨1, 2, "beta", 3, 4⟩ :=
  (parse_establishes_invariant "1.2-beta3.4").1 ⟨1, 2, "beta", 3, 4⟩ (by decide)

/-- C18: for every input string, every string that `Parse` and `ParseBinary` hand to
`atoi` is one to nine ASCII digits (the build group without its leading dot), `atoi`
succeeds on every such string, and both functions return a value or an error: the
panic branch is never reached. -/
theorem parse_never_panics (s : String) :
    (∃ r, Parse s = some r) ∧ (∃ r, ParseBinary s = some r) ∧
    (∀ m, FindStringSubmatch numberPat s = some m → AtoiArgsOk m) ∧
    (∀ m, FindStringSubmatch binaryPat s = some m → AtoiArgsOk m) ∧
    (∀ t : String, IsD t.data → ∃ n, atoi t = some n) := by
  refine ⟨parse_total s, parseBinary_total s, ?_, ?_, ?_⟩
  · intro m hm
    obtain ⟨a, b, tag, c, ob, ha, hb, hc, hob, -, hm2⟩ := find_numberPat_shape s m hm
    rw [hm2]
    exact ⟨ha, hb, patchOk_isD hc, fun hne => buildText_slice ob hob hne⟩
  · intro m hm
    obtain ⟨a, b, tag, c, ob, series, arch, ha, hb, hc, hob, -, -, -, hm2⟩ :=
      find_binaryPat_shape s m hm
    rw [hm2]
    exact ⟨ha, hb, patchOk_isD hc, fun hne => buildText_slice ob hob hne⟩
  · intro t ht
    exact ⟨_, atoi_digits t.data ht⟩

/-- Witness of `parse_never_panics`: the strings handed to `atoi` for `"1.2.3.4"`. -/
theorem parse_never_panics_witness : AtoiArgsOk ["1.2.3.4", "1", "2", ".", "", "3", ".4"] :=
  (parse_never_panics "1.2.3.4").2.2.1 ["1.2.3.4", "1", "2", ".", "", "3", ".4"] (by decide)

/-- C19: for a Number with non-negative numeric fields and a Tag that is empty or
made of word characters, `Parse(v.String()) == v` holds if and only if Major, Minor,
Patch and Build are all at most 999999999 and, when the Tag is non-empty, Patch is at
most 9. -/
theorem round_trip_exact_domain (v : Number)
    (hMajor : 0 ≤ v.Major) (hMinor : 0 ≤ v.Minor) (hPatch : 0 ≤ v.Patch) (hBuild : 0 ≤ v.Build)
    (hTag : v.Tag = "" ∨ IsW v.Tag.data) :
    Parse v.String = some (v, none) ↔
      (v.Major ≤ 999999999 ∧ v.Minor ≤ 999999999 ∧ v.Patch ≤ 999999999 ∧
        v.Build ≤ 999999999 ∧ (v.Tag ≠ "" → v.Patch ≤ 9)) := by
  constructor
  · intro h
    obtain ⟨a, b, tag, c, ob, ha, hb, hc, hob, -, hv⟩ := parse_ok_shape v.String v h
    have h1 := decimalValue_lt_of_isD ha
    have h2 := decimalValue_lt_of_isD hb
    have h3 := decimalValue_lt_of_isD (patchOk_isD hc)
    have h4 := buildValue_range ob hob
    rw [hv]
    refine ⟨by simp only; omega, by simp only; omega, by simp only; omega, h4.2, ?_⟩
    intro hne
    have hne2 : tag ≠ [] := by
      intro e; apply hne; rw [e]
    obtain ⟨-, x, hx, hxd⟩ := patchOk_tagged hc hne2
    have := decimalValue_single x hxd
    simp only [hx]
    omega
  · rintro ⟨h1, h2, h3, h4, h5⟩
    exact parse_string_of_bounds v ⟨hMajor, h1⟩ ⟨hMinor, h2⟩ ⟨hPatch, h3⟩ ⟨hBuild, h4⟩ hTag h5

/-- Witness of `round_trip_exact_domain` at `Number{1, 2, "beta", 12, 0}`, outside the domain. -/
theorem round_trip_exact_domain_witness :
    Parse (Number.String ⟨1, 2, "beta", 12, 0⟩) = some (⟨1, 2, "beta", 12, 0⟩, none) ↔
      ((1 : Int) ≤ 999999999 ∧ (2 : Int) ≤ 999999999 ∧ (12 : Int) ≤ 999999999 ∧
        (0 : Int) ≤ 999999999 ∧ (("beta" : String) ≠ "" → (12 : Int) ≤ 9)) :=
  round_trip_exact_domain ⟨1, 2, "beta", 12, 0⟩ (by decide) (by decide) (by decide) (by decide)
    (Or.inr ⟨by decide, by decide⟩)

/-- C20: for every string that `Parse` accepts and that contains a hyphen, the
maximal run `r` of word characters after the hyphen has at least two characters, the
returned Tag is `r` without its last character and the returned Patch is the value
of that last character alone, hence between 0 and 9; `Parse("1.2-beta12")` returns
`Number{1, 2, "beta1", 2, 0}`. -/
theorem greedy_tag_capture (s : String) (v : Number) (h : Parse s = some (v, none))
    (hh : '-' ∈ s.data) :
    2 ≤ (wordRunAfterHyphen s.data).length ∧
    v.Tag.data = (wordRunAfterHyphen s.data).dropLast ∧
    (∃ x, (wordRunAfterHyphen s.data).getLast? = some x ∧ v.Patch = (decimalValue [x] : Int)) ∧
    (0 ≤ v.Patch ∧ v.Patch ≤ 9) ∧
    Parse "1.2-beta12" = some (⟨1, 2, "beta1", 2, 0⟩, none) := by
  obtain ⟨a, b, tag, c, ob, ha, hb, hc, hob, hs, hv⟩ := parse_ok_shape s v h
  have hne : tag ≠ [] := by
    intro e
    subst e
    rw [hs] at hh
    exact no_hyphen_untagged a b c ob ha hb (patchOk_isD hc) hob hh
  obtain ⟨htag, x, hx, hxd⟩ := patchOk_tagged hc hne
  subst hx
  have hrun : wordRunAfterHyphen s.data = tag ++ [x] := by
    rw [hs]
    exact wordRun_numberText a b tag x ob ha hb htag hxd
  have h9 := decimalValue_single x hxd
  rw [hrun, hv]
  refine ⟨by have := htag.1; simp; omega, by simp, ⟨x, by simp, rfl⟩,
    ⟨by simp, by simp only; omega⟩, by decide⟩

/-- Witness of `greedy_tag_capture` at `"1.2-beta12"`. -/
theorem greedy_tag_capture_witness :
    2 ≤ (wordRunAfterHyphen ("1.2-beta12" : String).data).length ∧
    ("beta1" : String).data = (wordRunAfterHyphen ("1.2-beta12" : String).data).dropLast :=
  ⟨(greedy_tag_capture "1.2-beta12" ⟨1, 2, "beta1", 2, 0⟩ (by decide) (by decide)).1,
   (greedy_tag_capture "1.2-beta12" ⟨1, 2, "beta1", 2, 0⟩ (by decide) (by decide)).2.1⟩

end version
